import Mathlib

/-!
Shallow embedding of the hierarchical parameter store of `git_theta/utils.py`
(the Tree Codec `flatten`/`unflatten`, the Filesystem Mirror `walk_dir` /
`walk_parameter_dir`, and the Tree Differ `removed_params`), together with
theorems settling the specification's claims about them.

Python dictionaries are modelled as insertion-ordered association lists;
a Python value is either a non-dict atom or a dict.  Code that can raise a
Python exception is modelled in `Except Unit`.
-/

namespace GitTheta

/-- Values manipulated by the tree codec: a Python object is either an
opaque non-dict atom (payload of type `α`) or a `dict` mapping string keys
to further values, kept in insertion order. -/
inductive Val (α : Type) where
  | atom : α → Val α
  | dict : List (String × Val α) → Val α

/-- Python `d[k]` lookup on an association list (first binding wins). -/
def aget {κ β : Type} [DecidableEq κ] : List (κ × β) → κ → Option β
  | [], _ => none
  | (k', v) :: rest, k => if k' = k then some v else aget rest k

/-- Python `d[k] = v` on an association list: overwrite an existing binding
in place (keeping its position, as Python dicts do) or append a new one. -/
def aset {κ β : Type} [DecidableEq κ] : List (κ × β) → κ → β → List (κ × β)
  | [], k, v => [(k, v)]
  | (k', v') :: rest, k, v =>
      if k' = k then (k', v) :: rest else (k', v') :: aset rest k v

/-- Python `flat.update(sub)`: fold every binding of `sub` into `flat`. -/
def dictUpdate {κ β : Type} [DecidableEq κ]
    (flat sub : List (κ × β)) : List (κ × β) :=
  sub.foldl (fun f kv => aset f kv.1 kv.2) flat

/-- Default `is_leaf` argument of `flatten`:
`lambda v: not isinstance(v, dict)`. -/
def defaultIsLeaf {α : Type} : Val α → Bool
  | .atom _ => true
  | .dict _ => false

mutual

/-- Inner `_flatten(d, prefix)` of `flatten`.  Iterating `d.items()` over a
non-dict raises `AttributeError`, modelled by `Except.error ()`.  Note the
source recurses into values the predicate marks as leaves
(`if is_leaf(v): flat.update(_flatten(v, prefix + (k,)))`) and stores the
values it marks as branches (`else: flat[prefix + (k,)] = v`). -/
def flattenAux {α : Type} (is_leaf : Val α → Bool) :
    Val α → List String → Except Unit (List (List String × Val α))
  | .atom _, _ => .error ()
  | .dict es, pre => flattenEntries is_leaf pre es []

/-- Loop `for k, v in d.items(): ...` of `_flatten`, threading the `flat`
accumulator in iteration order. -/
def flattenEntries {α : Type} (is_leaf : Val α → Bool)
    (pre : List String) :
    List (String × Val α) → List (List String × Val α) →
      Except Unit (List (List String × Val α))
  | [], flat => .ok flat
  | (k, v) :: rest, flat =>
      if is_leaf v then
        match flattenAux is_leaf v (pre ++ [k]) with
        | .error e => .error e
        | .ok sub => flattenEntries is_leaf pre rest (dictUpdate flat sub)
      else
        flattenEntries is_leaf pre rest (aset flat (pre ++ [k]) v)

end

/-- Model of `flatten(d, is_leaf=lambda v: not isinstance(v, dict))`. -/
def flatten {α : Type} (d : Val α)
    (is_leaf : Val α → Bool := defaultIsLeaf) :
    Except Unit (List (List String × Val α)) :=
  flattenAux is_leaf d []

/-- Body of `unflatten` for one entry `(ks, v)`:
`curr = nested; for k in ks[:-1]: curr = curr.setdefault(k, {});
curr[ks[-1]] = v`, written as a recursive functional update of the nested
association list.  `ks[-1]` on an empty tuple raises `IndexError`;
`curr.setdefault`/`curr[...] = ...` on a non-dict raises, both modelled by
`Except.error ()`. -/
def insertPath {α : Type} :
    List (String × Val α) → List String → Val α →
      Except Unit (List (String × Val α))
  | _, [], _ => .error ()
  | t, [k], v => .ok (aset t k v)
  | t, k :: k2 :: rest, v =>
      match aget t k with
      | none =>
          match insertPath [] (k2 :: rest) v with
          | .error e => .error e
          | .ok sub => .ok (aset t k (.dict sub))
      | some (.dict sub) =>
          match insertPath sub (k2 :: rest) v with
          | .error e => .error e
          | .ok sub2 => .ok (aset t k (.dict sub2))
      | some (.atom _) => .error ()

/-- Model of `unflatten(d)`: fold every `(ks, v)` entry of the flat mapping,
in iteration order, into the nested result, starting from `nested = {}`. -/
def unflatten {α : Type} (d : List (List String × Val α)) :
    Except Unit (List (String × Val α)) :=
  d.foldlM (fun t kv => insertPath t kv.1 kv.2) []

/-- Model of `removed_params(new_model, old_model)`: flatten both models,
then yield `old_model[k]` for every flattened key `k` of `old_model` that is
not a flattened key of `new_model` (CPython iterates the set difference in
unspecified order; we fix `old_model`'s iteration order, which is immaterial
to the claims settled below). -/
def removed_params {α : Type} (new_model old_model : Val α) :
    Except Unit (List (Val α)) :=
  match flatten new_model with
  | .error e => .error e
  | .ok n =>
      match flatten old_model with
      | .error e => .error e
      | .ok o => .ok ((o.filter (fun kv => (aget n kv.1).isNone)).map (·.2))

/-! Filesystem model for `walk_dir` / `walk_parameter_dir`.  A filesystem
node is a regular file or a directory listing named children in the order
`os.listdir` reports them.  Paths are modelled as their lists of segments
(the segments `os.path.join` would join). -/

/-- Filesystem node: a regular file, or a directory with named children. -/
inductive FS where
  | file : FS
  | dir : List (String × FS) → FS

mutual

/-- Inner `_walk_dir(root)` of `walk_dir`, with the node at the current path
passed alongside the path (`os.listdir` is resolution against the real
filesystem; `os.listdir` of a non-directory raises `NotADirectoryError`,
modelled by `Except.error ()`).  The `is_leaf` callback may itself raise,
hence its `Except Unit Bool` type. -/
def walkNode (is_leaf : List String → Except Unit Bool) :
    List String → FS → Except Unit (Val (List String))
  | _, .file => .error ()
  | p, .dir es =>
      match walkEntries is_leaf p es [] with
      | .error e => .error e
      | .ok m => .ok (.dict m)

/-- Loop `for d in os.listdir(...)` of `_walk_dir`, threading the `dir_dict`
accumulator: a leaf-judged entry is bound to its full path, any other entry
to the result of recursing into it. -/
def walkEntries (is_leaf : List String → Except Unit Bool)
    (p : List String) :
    List (String × FS) → List (String × Val (List String)) →
      Except Unit (List (String × Val (List String)))
  | [], acc => .ok acc
  | (d, sub) :: rest, acc =>
      match is_leaf (p ++ [d]) with
      | .error e => .error e
      | .ok true => walkEntries is_leaf p rest (aset acc d (.atom (p ++ [d])))
      | .ok false =>
          match walkNode is_leaf (p ++ [d]) sub with
          | .error e => .error e
          | .ok r => walkEntries is_leaf p rest (aset acc d r)

end

/-- Model of `walk_dir(root, is_leaf)`: `_walk_dir((root,))` on the
filesystem subtree `fs` rooted at the single-segment path `[root]`. -/
def walk_dir (root : String) (fs : FS)
    (is_leaf : List String → Except Unit Bool) :
    Except Unit (Val (List String)) :=
  walkNode is_leaf [root] fs

/-- Resolve a path (list of segments relative to a base node) in the
filesystem, following first matching child names. -/
def resolveFS : FS → List String → Option FS
  | node, [] => some node
  | .file, _ :: _ => none
  | .dir es, k :: rest =>
      match aget es k with
      | none => none
      | some sub => resolveFS sub rest

/-- Predicate `lambda path: "params" in os.listdir(path)` of
`walk_parameter_dir`, resolved against the filesystem subtree `fs` mounted
at the root segment `root`: `os.listdir` raises on a missing path or a
non-directory. -/
def paramsIsLeaf (root : String) (fs : FS) (p : List String) :
    Except Unit Bool :=
  match p with
  | [] => .error ()
  | r :: rest =>
      if r = root then
        match resolveFS fs rest with
        | some (.dir es) => .ok (es.any (fun e => e.1 = "params"))
        | some .file => .error ()
        | none => .error ()
      else .error ()

/-- Model of `walk_parameter_dir(root)`:
`walk_dir(root, lambda path: "params" in os.listdir(path))`. -/
def walk_parameter_dir (root : String) (fs : FS) :
    Except Unit (Val (List String)) :=
  walk_dir root fs (paramsIsLeaf root fs)

/-- Modelled from the spec (§4.2): the is-leaf predicate described by the
sentence "`is_leaf(path) := path contains an entry named "params"`", read as
a total boolean predicate that holds exactly when a directory sits at the
path and lists an entry named `"params"`. -/
def specParamsIsLeaf (root : String) (fs : FS) (p : List String) :
    Except Unit Bool :=
  match p with
  | [] => .ok false
  | r :: rest =>
      if r = root then
        match resolveFS fs rest with
        | some (.dir es) => .ok (es.any (fun e => e.1 = "params"))
        | _ => .ok false
      else .ok false

mutual

/-- Wellformedness of a filesystem tree: sibling names are distinct at every
directory, as they are on a real filesystem. -/
def FS.sane : FS → Bool
  | .file => true
  | .dir es => (es.map Prod.fst).Nodup && FS.saneEntries es

/-- Pointwise `FS.sane` over a directory listing. -/
def FS.saneEntries : List (String × FS) → Bool
  | [] => true
  | (_, sub) :: rest => FS.sane sub && FS.saneEntries rest

end

/-! Ghost definitions used to state properties of `unflatten`. -/

/-- Nested single chain of dicts holding `v` at path `p`: the tree
`insertPath` builds for a path none of whose prefixes is occupied. -/
def chainOf {α : Type} : List String → Val α → List (String × Val α)
  | [], _ => []
  | [k], v => [(k, v)]
  | k :: k2 :: rest, v => [(k, .dict (chainOf (k2 :: rest) v))]

/-- Value found by following a nonempty key path through nested dicts. -/
def lookupPath {α : Type} :
    List (String × Val α) → List String → Option (Val α)
  | _, [] => none
  | t, [k] => aget t k
  | t, k :: k2 :: rest =>
      match aget t k with
      | some (.dict sub) => lookupPath sub (k2 :: rest)
      | _ => none

/-- Success predicate of `insertPath t p v` (independent of `v`): the walk
along `p`'s prefix meets no atom and `p` is nonempty. -/
def pathFits {α : Type} : List (String × Val α) → List String → Bool
  | _, [] => false
  | _, [_] => true
  | t, k :: k2 :: rest =>
      match aget t k with
      | none => true
      | some (.dict sub) => pathFits sub (k2 :: rest)
      | some (.atom _) => false

/-! Deep equality of Python values.  Python `==` on dicts compares key sets
and the values under each key, ignoring insertion order, so it is modelled
as a relation rather than syntactic equality of association lists. -/

/-- Lifting of a relation to `Option`, relating `none` to `none` and
`some a` to `some b` when `r a b`. -/
inductive OptRel {α β : Type} (r : α → β → Prop) :
    Option α → Option β → Prop where
  | none : OptRel r none none
  | some {a : α} {b : β} : r a b → OptRel r (some a) (some b)

/-- Deep equality of modelled Python values (Python `==`): equal atoms are
equal, and two dicts are equal when every key is bound in one iff in the
other, with deeply equal values. -/
inductive VEq {α : Type} : Val α → Val α → Prop where
  | atom (a : α) : VEq (.atom a) (.atom a)
  | dict (t1 t2 : List (String × Val α)) :
      (∀ k : String, OptRel VEq (aget t1 k) (aget t2 k)) →
      VEq (.dict t1) (.dict t2)

/-- Deep equality of two modelled dicts (their association lists). -/
def DEq {α : Type} (t1 t2 : List (String × Val α)) : Prop :=
  ∀ k : String, OptRel VEq (aget t1 k) (aget t2 k)

/-- Lifting of a relation to `Except Unit`: both raise, or both return
related values. -/
def ERel {α β : Type} (r : α → β → Prop) :
    Except Unit α → Except Unit β → Prop
  | .error _, .error _ => True
  | .ok a, .ok b => r a b
  | .error _, .ok _ => False
  | .ok _, .error _ => False

mutual

/-- Instrumented `_walk_dir`: identical to `walkNode`, but also returns the
list of paths the `is_leaf` predicate was evaluated on (in call order, up to
the point a raise aborts the walk). -/
def walkNodeT (is_leaf : List String → Except Unit Bool) :
    List String → FS →
      Except Unit (Val (List String)) × List (List String)
  | _, .file => (.error (), [])
  | p, .dir es =>
      match walkEntriesT is_leaf p es [] with
      | (.error e, tr) => (.error e, tr)
      | (.ok m, tr) => (.ok (.dict m), tr)

/-- Instrumented entry loop of `walkNodeT`. -/
def walkEntriesT (is_leaf : List String → Except Unit Bool)
    (p : List String) :
    List (String × FS) → List (String × Val (List String)) →
      Except Unit (List (String × Val (List String))) ×
        List (List String)
  | [], acc => (.ok acc, [])
  | (d, sub) :: rest, acc =>
      match is_leaf (p ++ [d]) with
      | .error e => (.error e, [p ++ [d]])
      | .ok true =>
          match walkEntriesT is_leaf p rest
              (aset acc d (.atom (p ++ [d]))) with
          | (r, tr) => (r, (p ++ [d]) :: tr)
      | .ok false =>
          match walkNodeT is_leaf (p ++ [d]) sub with
          | (.error e, tr1) => (.error e, (p ++ [d]) :: tr1)
          | (.ok rsub, tr1) =>
              match walkEntriesT is_leaf p rest (aset acc d rsub) with
              | (r, tr) => (r, (p ++ [d]) :: (tr1 ++ tr))

end

/-- Reformulation helper for `insertPath` on a nonempty path `k :: r`: the
new binding of `k`, computed from the old one. -/
def insertChild {α : Type} :
    Option (Val α) → List String → Val α → Except Unit (Val α)
  | _, [], v => .ok v
  | none, r :: rs, v => .ok (.dict (chainOf (r :: rs) v))
  | some (.dict sub), r :: rs, v =>
      match insertPath sub (r :: rs) v with
      | .error e => .error e
      | .ok s => .ok (.dict s)
  | some (.atom _), _ :: _, _ => .error ()

/-- Two successive entry insertions (the body of `unflatten` on a
two-entry suffix), used to state that insertions commute. -/
def ins2 {α : Type} (t : List (String × Val α)) (p1 : List String)
    (v1 : Val α) (p2 : List String) (v2 : Val α) :
    Except Unit (List (String × Val α)) :=
  match insertPath t p1 v1 with
  | .error _ => .error ()
  | .ok t1 => insertPath t1 p2 v2

/-- The entry loop of `unflatten` started from an arbitrary nested
accumulator (`unflatten d = foldIns [] d`). -/
def foldIns {α : Type} (t : List (String × Val α))
    (d : List (List String × Val α)) :
    Except Unit (List (String × Val α)) :=
  d.foldlM (fun t kv => insertPath t kv.1 kv.2) t

/-! Heap model for the frame property of `unflatten`.  Python dicts are
mutable objects with identity; `unflatten` mutates dicts reached through
`curr`, which can alias objects stored among the input's values.  The heap
maps addresses to dict objects; stored values are primitives or references.
Dict keys are strings (for the nested dicts `unflatten` builds and walks)
or tuples of strings (the input flat mapping's key paths).  CPython raises
`RuntimeError` when a dict changes size while being iterated; the loop
below performs that size check when fetching each next entry (i.e. after
every processed entry, including the final `StopIteration` fetch). -/

/-- Key of a Python dict in the heap model: a string segment or a key-path
tuple. -/
inductive PyKey where
  | str : String → PyKey
  | tup : List String → PyKey
deriving DecidableEq

/-- Value stored in a heap dict: an opaque primitive or a reference to
another dict object. -/
inductive HVal (α : Type) where
  | prim : α → HVal α
  | ref : Nat → HVal α

/-- Heap: an allocation counter and the allocated dict objects. -/
structure Heap (α : Type) where
  next : Nat
  objs : List (Nat × List (PyKey × HVal α))

/-- Read the dict object at an address. -/
def hlookup {α : Type} (h : Heap α) (a : Nat) :
    Option (List (PyKey × HVal α)) :=
  aget h.objs a

/-- Overwrite the dict object at an address. -/
def hwrite {α : Type} (h : Heap α) (a : Nat)
    (o : List (PyKey × HVal α)) : Heap α :=
  ⟨h.next, aset h.objs a o⟩

/-- Allocate a fresh empty dict (`{}`), returning its address. -/
def halloc {α : Type} (h : Heap α) : Nat × Heap α :=
  (h.next, ⟨h.next + 1, aset h.objs h.next []⟩)

/-- One step `curr = curr.setdefault(k, {})`.  A missing binding allocates
a fresh `{}` and links it; an existing reference is followed; an existing
primitive makes the immediately following `setdefault`/item-assignment on
it raise, so the walk raises with no further heap mutation (we raise at
the lookup, which is heap-observationally identical). -/
def setdefaultH {α : Type} (h : Heap α) (curr : Nat) (k : String) :
    Except Unit (Nat × Heap α) :=
  match hlookup h curr with
  | none => .error ()
  | some obj =>
      match aget obj (PyKey.str k) with
      | some (HVal.ref a) => .ok (a, h)
      | some (HVal.prim _) => .error ()
      | none =>
          match halloc h with
          | (na, h1) =>
              .ok (na, hwrite h1 curr (aset obj (PyKey.str k)
                (HVal.ref na)))

/-- The loop `for k in ks[:-1]: curr = curr.setdefault(k, {})`. -/
def walkSegs {α : Type} :
    Heap α → Nat → List String → Except Unit (Nat × Heap α)
  | h, curr, [] => .ok (curr, h)
  | h, curr, k :: rest =>
      match setdefaultH h curr k with
      | .error e => .error e
      | .ok (c2, h2) => walkSegs h2 c2 rest

/-- Final assignment `curr[ks[-1]] = v`. -/
def assignH {α : Type} (h : Heap α) (curr : Nat) (k : String)
    (v : HVal α) : Except Unit (Heap α) :=
  match hlookup h curr with
  | none => .error ()
  | some obj => .ok (hwrite h curr (aset obj (PyKey.str k) v))

/-- Processing of one entry `(ks, v)` of the flat mapping (`ks[-1]` on an
empty tuple raises `IndexError`). -/
def insertEntryH {α : Type} (h : Heap α) (nested : Nat)
    (ks : List String) (v : HVal α) : Except Unit (Heap α) :=
  match ks.getLast? with
  | none => .error ()
  | some klast =>
      match walkSegs h nested ks.dropLast with
      | .error e => .error e
      | .ok (curr, h2) => assignH h2 curr klast v

/-- Entry loop of `unflatten` over the input dict at `dAddr`: the entries
seen at call time are `orig`; fetching each next entry (and the final
`StopIteration`) performs CPython's changed-size-during-iteration check
against the live object.  Keys of the flat mapping are tuples by the
function's contract; a string key is rejected. -/
def unflattenLoop {α : Type} (orig : List (PyKey × HVal α))
    (dAddr nested : Nat) :
    Heap α → List (PyKey × HVal α) → Except Unit (Heap α)
  | h, [] =>
      match hlookup h dAddr with
      | some o => if o.length = orig.length then .ok h else .error ()
      | none => .error ()
  | h, (PyKey.tup ks, v) :: rest =>
      match insertEntryH h nested ks v with
      | .error e => .error e
      | .ok h2 =>
          match hlookup h2 dAddr with
          | some o =>
              if o.length = orig.length then
                unflattenLoop orig dAddr nested h2 rest
              else .error ()
          | none => .error ()
  | _, (PyKey.str _, _) :: _ => .error ()

/-- Heap model of `unflatten(d)` for the dict object at `dAddr`:
`nested = {}` is allocated fresh, every entry of `d` is folded in, and the
address of `nested` is returned together with the final heap. -/
def unflattenH {α : Type} (h : Heap α) (dAddr : Nat) :
    Except Unit (Heap α × Nat) :=
  match hlookup h dAddr with
  | none => .error ()
  | some orig =>
      match halloc h with
      | (nA, h1) =>
          match unflattenLoop orig dAddr nA h1 orig with
          | .error e => .error e
          | .ok h2 => .ok (h2, nA)

/-- Heap wellformedness: every allocated address is below the counter. -/
def wfHeap {α : Type} (h : Heap α) : Prop :=
  ∀ ao ∈ h.objs, ao.1 < h.next

/-- Invariant of the entry loop: the input dict either is untouched or has
strictly grown (every write into it inserts a string key it cannot have
held, since its own keys are tuples). -/
def dInv {α : Type} (orig : List (PyKey × HVal α)) (dAddr : Nat)
    (h : Heap α) : Prop :=
  ∃ o, hlookup h dAddr = some o ∧ (o = orig ∨ orig.length < o.length)

/-- All keys of a dict object are key-path tuples (the contract of the
flat mapping passed to `unflatten`). -/
def tupKeyed {α : Type} (o : List (PyKey × HVal α)) : Prop :=
  ∀ kv ∈ o, ∃ ks, kv.1 = PyKey.tup ks

/-! Basic lemmas about the association-list dict operations. -/

theorem aget_aset_self {κ β : Type} [DecidableEq κ]
    (t : List (κ × β)) (k : κ) (v : β) : aget (aset t k v) k = some v := by
  induction t with
  | nil => simp [aget, aset]
  | cons hd tl ih =>
      obtain ⟨k', v'⟩ := hd
      by_cases h : k' = k
      · simp [aset, aget, h]
      · simp [aset, aget, h, ih]

theorem aget_aset_ne {κ β : Type} [DecidableEq κ]
    (t : List (κ × β)) (k0 k : κ) (v : β) (h : k0 ≠ k) :
    aget (aset t k0 v) k = aget t k := by
  induction t with
  | nil => simp [aget, aset, h]
  | cons hd tl ih =>
      by_cases h1 : hd.1 = k0
      · simp [aset, aget, h1, h]
      · simp only [aset, if_neg h1, aget]
        by_cases h2 : hd.1 = k
        · simp [h2]
        · simp [h2, ih]

theorem aset_fresh {κ β : Type} [DecidableEq κ]
    (t : List (κ × β)) (k : κ) (v : β) (h : aget t k = none) :
    aset t k v = t ++ [(k, v)] := by
  induction t with
  | nil => simp [aset]
  | cons hd tl ih =>
      simp only [aget] at h
      by_cases h1 : hd.1 = k
      · simp [h1] at h
      · simp only [aset, if_neg h1, List.cons_append]
        rw [if_neg h1] at h
        simp [ih h]

theorem aget_mem {κ β : Type} [DecidableEq κ]
    (t : List (κ × β)) (k : κ) (v : β) (h : aget t k = some v) :
    (k, v) ∈ t := by
  induction t with
  | nil => simp [aget] at h
  | cons hd tl ih =>
      obtain ⟨k', v'⟩ := hd
      simp only [aget] at h
      by_cases h1 : k' = k
      · rw [if_pos h1] at h
        subst h1
        exact List.mem_cons.mpr (Or.inl (by simpa using h.symm))
      · rw [if_neg h1] at h
        exact List.mem_cons_of_mem _ (ih h)

theorem aget_of_mem_nodup {κ β : Type} [DecidableEq κ]
    (t : List (κ × β)) (k : κ) (v : β)
    (hn : (t.map Prod.fst).Nodup) (h : (k, v) ∈ t) :
    aget t k = some v := by
  induction t with
  | nil => simp at h
  | cons hd tl ih =>
      simp only [List.map_cons, List.nodup_cons] at hn
      rcases List.mem_cons.mp h with h | h
      · subst h
        simp [aget]
      · have hne : hd.1 ≠ k := by
          intro he
          exact hn.1 (he ▸ (List.mem_map.mpr ⟨(k, v), h, rfl⟩))
        simp only [aget, if_neg hne]
        exact ih hn.2 h

/-! Behaviour of `flatten` under its default predicate.  The source's inner
loop recurses into values the predicate marks as leaves and stores the
values it marks as branches, so with the default predicate it raises on any
non-dict value and stores dict children verbatim at depth one. -/

theorem flattenEntries_default_all_dict {α : Type}
    (es : List (String × Val α)) :
    ∀ (pre : List String) (flat : List (List String × Val α)),
      (∀ kv ∈ es, defaultIsLeaf kv.2 = false) →
      (∀ kv ∈ es, aget flat (pre ++ [kv.1]) = none) →
      (es.map Prod.fst).Nodup →
      flattenEntries defaultIsLeaf pre es flat =
        .ok (flat ++ es.map (fun kv => (pre ++ [kv.1], kv.2))) := by
  induction es with
  | nil => intro pre flat _ _ _; simp [flattenEntries]
  | cons hd tl ih =>
      intro pre flat h1 h2 hn
      obtain ⟨k, v⟩ := hd
      have hv : defaultIsLeaf v = false := h1 (k, v) (by simp)
      simp only [flattenEntries, hv, Bool.false_eq_true, if_false]
      rw [aset_fresh flat (pre ++ [k]) v (h2 (k, v) (by simp))]
      simp only [List.map_cons, List.nodup_cons] at hn
      have step := ih pre (flat ++ [(pre ++ [k], v)])
        (fun kv hkv => h1 kv (List.mem_cons_of_mem _ hkv))
        (fun kv hkv => by
          rw [← aset_fresh flat (pre ++ [k]) v (h2 (k, v) (by simp))]
          rw [aget_aset_ne]
          · exact h2 kv (List.mem_cons_of_mem _ hkv)
          · intro he
            have : k = kv.1 := by simpa using List.append_cancel_left he
            exact hn.1 (this ▸ List.mem_map.mpr ⟨kv, hkv, rfl⟩))
        hn.2
      rw [step]
      simp

theorem flattenEntries_default_err {α : Type}
    (es : List (String × Val α)) :
    ∀ (pre : List String) (flat : List (List String × Val α)),
      (∃ kv ∈ es, defaultIsLeaf kv.2 = true) →
      flattenEntries defaultIsLeaf pre es flat = .error () := by
  induction es with
  | nil => intro pre flat h; simp at h
  | cons hd tl ih =>
      intro pre flat h
      obtain ⟨k, v⟩ := hd
      by_cases hv : defaultIsLeaf v = true
      · have hva : ∃ a, v = Val.atom a := by
          cases v with
          | atom a => exact ⟨a, rfl⟩
          | dict _ => simp [defaultIsLeaf] at hv
        obtain ⟨a, rfl⟩ := hva
        simp [flattenEntries, flattenAux, defaultIsLeaf]
      · have hv' : defaultIsLeaf v = false := by
          simpa using hv
        simp only [flattenEntries, hv', Bool.false_eq_true, if_false]
        apply ih
        rcases h with ⟨kv, hkv, hleaf⟩
        rcases List.mem_cons.mp hkv with he | hm
        · rw [he] at hleaf
          simp only at hleaf
          rw [hleaf] at hv'
          cases hv'
        · exact ⟨kv, hm, hleaf⟩

/-- C9: with the default is-leaf predicate, `flatten(d)` returns normally
exactly when every value of `d` is a dict, in which case each dict child is
stored verbatim under its depth-one path `(k,)`; if any value is a non-dict
atom, the implementation recurses into it (the predicate marks it a leaf)
and raises when iterating its items. -/
theorem flatten_default_shallow {α : Type}
    (es : List (String × Val α)) (hn : (es.map Prod.fst).Nodup) :
    flatten (Val.dict es) =
      if es.all (fun kv => !(defaultIsLeaf kv.2)) then
        .ok (es.map (fun kv => ([kv.1], kv.2)))
      else .error () := by
  by_cases h : es.all (fun kv => !(defaultIsLeaf kv.2)) = true
  · rw [if_pos h]
    have h1 : ∀ kv ∈ es, defaultIsLeaf kv.2 = false := by
      intro kv hkv
      have := List.all_eq_true.mp h kv hkv
      simpa using this
    have := flattenEntries_default_all_dict es [] []
      h1 (fun kv _ => rfl) hn
    simpa [flatten, flattenAux] using this
  · rw [if_neg h]
    have h1 : ∃ kv ∈ es, defaultIsLeaf kv.2 = true := by
      rw [List.all_eq_true] at h
      push_neg at h
      rcases h with ⟨kv, hkv, hne⟩
      exact ⟨kv, hkv, by simpa using hne⟩
    have := flattenEntries_default_err es [] [] h1
    simpa [flatten, flattenAux] using this

/-- Witness for `flatten_default_shallow` at a concrete input whose single
value is a dict. -/
theorem flatten_default_shallow_witness :
    flatten (Val.dict [("a", Val.dict ([("b", Val.atom (1 : Nat))]))]) =
      if [("a", Val.dict [("b", Val.atom (1 : Nat))])].all
          (fun kv => !(defaultIsLeaf kv.2)) then
        .ok ([("a", Val.dict [("b", Val.atom (1 : Nat))])].map
          (fun kv => ([kv.1], kv.2)))
      else .error () :=
  flatten_default_shallow
    [("a", Val.dict [("b", Val.atom (1 : Nat))])] (by decide)

/-- C1: the round-trip law `unflatten(flatten(t)) == t` fails on the code:
for the tree `{"d": 3}`, whose only leaf is a non-dict, `flatten` recurses
into the leaf (its branches are inverted) and raises `AttributeError`
instead of producing `{("d",): 3}`, so the round trip raises rather than
returning the tree. -/
theorem flatten_roundtrip_raises_on_leaf :
    flatten (Val.dict [("d", Val.atom (3 : Nat))]) = .error () := rfl

/-- C2: on the spec's Example 1 input `{"a": {"b": 1, "c": 2}, "d": 3}`,
`flatten` does not return `{("a","b"): 1, ("a","c"): 2, ("d",): 3}`: the
inverted leaf test stores `{"b": 1, "c": 2}` verbatim under `("a",)` and
then recurses into the non-dict `3`, raising `AttributeError`. -/
theorem flatten_example1_raises :
    flatten (Val.dict [("a", Val.dict [("b", Val.atom (1 : Nat)),
      ("c", Val.atom 2)]), ("d", Val.atom 3)]) = .error () := rfl

/-- C3: on the spec's Example 4, `removed_params(new, old)` yields nothing
instead of `[2]`: the broken `flatten` maps both models to the single key
path `("a",)`, so the key-set difference is empty. -/
theorem removed_params_example4_empty :
    removed_params (Val.dict [("a", Val.dict [("b", Val.atom (1 : Nat))])])
      (Val.dict [("a", Val.dict [("b", Val.atom (1 : Nat)),
        ("c", Val.atom 2)])]) = .ok [] := rfl

/-- After a successful `insertPath t p v`, the value stored at path `p` of
the result is `v`. -/
theorem lookupPath_insertPath {α : Type} :
    ∀ (p : List String) (t t2 : List (String × Val α)) (v : Val α),
      insertPath t p v = .ok t2 → lookupPath t2 p = some v := by
  intro p
  induction p with
  | nil => intro t t2 v h; simp [insertPath] at h
  | cons k tail ih =>
      intro t t2 v h
      cases tail with
      | nil =>
          simp only [insertPath, Except.ok.injEq] at h
          subst h
          simp [lookupPath, aget_aset_self]
      | cons k2 rest =>
          simp only [insertPath] at h
          cases hg : aget t k with
          | none =>
              rw [hg] at h
              cases hs : insertPath ([] : List (String × Val α))
                  (k2 :: rest) v with
              | error e => rw [hs] at h; cases h
              | ok sub =>
                  rw [hs] at h
                  simp only [Except.ok.injEq] at h
                  subst h
                  simp [lookupPath, aget_aset_self, ih _ _ _ hs]
          | some w =>
              rw [hg] at h
              cases w with
              | atom a => cases h
              | dict sub =>
                  dsimp only at h
                  cases hs : insertPath sub (k2 :: rest) v with
                  | error e => rw [hs] at h; cases h
                  | ok sub2 =>
                      rw [hs] at h
                      simp only [Except.ok.injEq] at h
                      subst h
                      simp [lookupPath, aget_aset_self, ih _ _ _ hs]

/-- C6: `unflatten` builds the nested tree by walking/creating nested
mapping nodes along all but the last segment of each entry's key path and
assigning the value at the final segment: on `{("x","y"): 5, ("x","z"): 6}`
it returns `{"x": {"y": 5, "z": 6}}`, and in general a successfully
inserted entry is found at its key path in the result. -/
theorem unflatten_nested_assignment :
    (unflatten [(["x", "y"], Val.atom (5 : Nat)),
        (["x", "z"], Val.atom 6)] =
      .ok [("x", Val.dict [("y", Val.atom 5), ("z", Val.atom 6)])]) ∧
    ∀ (α : Type) (p : List String) (t t2 : List (String × Val α))
      (v : Val α),
      insertPath t p v = .ok t2 → lookupPath t2 p = some v :=
  ⟨rfl, fun _ p t t2 v h => lookupPath_insertPath p t t2 v h⟩

/-- Witness for `unflatten_nested_assignment` at a concrete insertion. -/
theorem unflatten_nested_assignment_witness :
    lookupPath [("a", Val.atom (7 : Nat))] ["a"] = some (Val.atom 7) :=
  unflatten_nested_assignment.2 Nat ["a"] [] [("a", Val.atom 7)]
    (Val.atom 7) rfl

/-! Lemmas about inserting along fresh, extended or truncated paths. -/

theorem insertPath_nil {α : Type} :
    ∀ (p : List String) (v : Val α), p ≠ [] →
      insertPath [] p v = .ok (chainOf p v) := by
  intro p
  induction p with
  | nil => intro v h; cases h rfl
  | cons k tail ih =>
      intro v _
      cases tail with
      | nil => simp [insertPath, chainOf, aset]
      | cons k2 rest =>
          have : aget ([] : List (String × Val α)) k = none := rfl
          simp [insertPath, this, ih v (by simp), chainOf, aset]

theorem insertPath_chain_extend_err {α : Type} :
    ∀ (p : List String) (a : α) (x : String) (s : List String) (v2 : Val α),
      p ≠ [] →
      insertPath (chainOf p (Val.atom a)) (p ++ x :: s) v2 = .error () := by
  intro p
  induction p with
  | nil => intro a x s v2 h; cases h rfl
  | cons k tail ih =>
      intro a x s v2 _
      cases tail with
      | nil =>
          have hg : aget (chainOf [k] (Val.atom a)) k
              = some (Val.atom a) := by simp [chainOf, aget]
          simp [insertPath, chainOf, aget]
      | cons k2 rest =>
          have hg : aget (chainOf (k :: k2 :: rest) (Val.atom a)) k
              = some (Val.dict (chainOf (k2 :: rest) (Val.atom a))) := by
            simp [chainOf, aget]
          have herr := ih a x s v2 (by simp)
          simp only [List.cons_append, insertPath, hg]
          rw [List.cons_append] at herr
          simp only [List.append_eq]
          rw [herr]

theorem insertPath_chain_truncate {α : Type} :
    ∀ (p s : List String) (v2 w : Val α), p ≠ [] →
      insertPath (chainOf (p ++ s) v2) p w = .ok (chainOf p w) := by
  intro p
  induction p with
  | nil => intro s v2 w h; cases h rfl
  | cons k tail ih =>
      intro s v2 w _
      cases tail with
      | nil =>
          cases s with
          | nil => simp [insertPath, chainOf, aset]
          | cons x s' => simp [insertPath, chainOf, aset]
      | cons k2 rest =>
          have hg : aget (chainOf ((k :: k2 :: rest) ++ s) v2) k
              = some (Val.dict (chainOf ((k2 :: rest) ++ s) v2)) := by
            simp [chainOf, aget]
          simp only [insertPath, hg]
          rw [ih s v2 w (by simp)]
          simp [chainOf, aset]

/-- Counterexample for C4: a flat mapping whose two key paths disagree
about whether `("a",)` is a leaf or a branch does NOT always fail — when
the terminating entry is iterated after the extending one, `unflatten`
silently overwrites the subtree `{"b": 2}` with the value `1`. -/
theorem unflatten_silent_overwrite :
    unflatten [(["a", "b"], Val.atom (2 : Nat)), (["a"], Val.atom 1)]
      = .ok [("a", Val.atom 1)] := rfl

/-- C4 (amended): for a flat mapping holding a path `p` bound to a
non-dict value and an extension `q` of `p`, the construction error only
surfaces when the extending entry is processed after the terminating one;
in the opposite order `unflatten` silently overwrites the extension's
subtree with the terminating value. -/
theorem unflatten_conflict_order_dependent {α : Type}
    (a : α) (v2 : Val α) (p q : List String)
    (hp : p ≠ []) (hpq : p <+: q) (hne : p ≠ q) :
    unflatten [(p, Val.atom a), (q, v2)] = .error () ∧
    unflatten [(q, v2), (p, Val.atom a)]
      = .ok (chainOf p (Val.atom a)) := by
  obtain ⟨s, rfl⟩ := hpq
  cases s with
  | nil => simp at hne
  | cons x s' =>
      constructor
      · show List.foldlM _ _ _ = _
        rw [List.foldlM_cons]
        rw [insertPath_nil p (Val.atom a) hp]
        show List.foldlM _ _ _ = _
        rw [List.foldlM_cons]
        rw [insertPath_chain_extend_err p a x s' v2 hp]
        rfl
      · show List.foldlM _ _ _ = _
        rw [List.foldlM_cons]
        rw [insertPath_nil (p ++ x :: s') v2 (by simp)]
        show List.foldlM _ _ _ = _
        rw [List.foldlM_cons]
        rw [insertPath_chain_truncate p (x :: s') v2 (Val.atom a) hp]
        rfl

/-- Witness for `unflatten_conflict_order_dependent` at the concrete
conflicting pair `("p",)` and `("p","q")`. -/
theorem unflatten_conflict_order_dependent_witness :
    unflatten [(["p"], Val.atom (1 : Nat)), (["p", "q"], Val.atom 2)]
        = .error () ∧
    unflatten [(["p", "q"], Val.atom (2 : Nat)), (["p"], Val.atom 1)]
        = .ok (chainOf ["p"] (Val.atom 1)) :=
  unflatten_conflict_order_dependent 1 (Val.atom 2) ["p"] ["p", "q"]
    (by decide) ⟨["q"], rfl⟩ (by decide)

/-! Lemmas about filesystem resolution and wellformed directory trees. -/

theorem saneEntries_mem (es : List (String × FS)) (d : String) (sub : FS)
    (h : FS.saneEntries es = true) (hm : (d, sub) ∈ es) :
    FS.sane sub = true := by
  induction es with
  | nil => simp at hm
  | cons hd tl ih =>
      obtain ⟨d0, s0⟩ := hd
      simp only [FS.saneEntries, Bool.and_eq_true] at h
      rcases List.mem_cons.mp hm with he | hm'
      · cases he
        exact h.1
      · exact ih h.2 hm'

theorem sane_dir (es : List (String × FS)) (h : FS.sane (.dir es) = true) :
    (es.map Prod.fst).Nodup ∧ FS.saneEntries es = true := by
  simp only [FS.sane, Bool.and_eq_true, decide_eq_true_eq] at h
  exact h

theorem resolveFS_sane :
    ∀ (rest : List String) (fs node : FS), FS.sane fs = true →
      resolveFS fs rest = some node → FS.sane node = true := by
  intro rest
  induction rest with
  | nil =>
      intro fs node hs h
      simp only [resolveFS, Option.some.injEq] at h
      exact h ▸ hs
  | cons k tl ih =>
      intro fs node hs h
      cases fs with
      | file => simp [resolveFS] at h
      | dir es =>
          simp only [resolveFS] at h
          cases hg : aget es k with
          | none => rw [hg] at h; cases h
          | some sub =>
              rw [hg] at h
              exact ih sub node
                (saneEntries_mem es k sub (sane_dir es hs).2
                  (aget_mem es k sub hg)) h

theorem resolveFS_child :
    ∀ (rest : List String) (fs : FS) (es : List (String × FS))
      (d : String) (sub : FS),
      resolveFS fs rest = some (.dir es) → aget es d = some sub →
      resolveFS fs (rest ++ [d]) = some sub := by
  intro rest
  induction rest with
  | nil =>
      intro fs es d sub h hg
      simp only [resolveFS, Option.some.injEq] at h
      subst h
      simp [resolveFS, hg]
  | cons k tl ih =>
      intro fs es d sub h hg
      cases fs with
      | file => simp [resolveFS] at h
      | dir es0 =>
          simp only [resolveFS] at h
          cases hk : aget es0 k with
          | none => rw [hk] at h; cases h
          | some n =>
              rw [hk] at h
              simp only [List.cons_append, resolveFS, hk]
              exact ih n es d sub h hg

mutual

theorem walkNode_params_spec_eq (root : String) (fs : FS)
    (hs : FS.sane fs = true) (rest : List String) (node : FS)
    (hres : resolveFS fs rest = some node) :
    walkNode (paramsIsLeaf root fs) (root :: rest) node
      = walkNode (specParamsIsLeaf root fs) (root :: rest) node := by
  cases node with
  | file => rfl
  | dir es =>
      have hsn := resolveFS_sane rest fs (.dir es) hs hres
      have hch : ∀ dp ∈ es, resolveFS fs (rest ++ [dp.1]) = some dp.2 := by
        intro dp hdp
        exact resolveFS_child rest fs es dp.1 dp.2 hres
          (aget_of_mem_nodup es dp.1 dp.2 (sane_dir es hsn).1
            (by simpa using hdp))
      simp only [walkNode]
      rw [walkEntries_params_spec_eq root fs hs rest es [] hch]

theorem walkEntries_params_spec_eq (root : String) (fs : FS)
    (hs : FS.sane fs = true) (rest : List String)
    (iter : List (String × FS)) (acc : List (String × Val (List String)))
    (hch : ∀ dp ∈ iter, resolveFS fs (rest ++ [dp.1]) = some dp.2) :
    walkEntries (paramsIsLeaf root fs) (root :: rest) iter acc
      = walkEntries (specParamsIsLeaf root fs) (root :: rest) iter acc := by
  cases iter with
  | nil => rfl
  | cons hd tl =>
      obtain ⟨d, sub⟩ := hd
      have hres : resolveFS fs (rest ++ [d]) = some sub :=
        hch (d, sub) (by simp)
      have hpath : (root :: rest) ++ [d] = root :: (rest ++ [d]) := by simp
      have hch' : ∀ dp ∈ tl, resolveFS fs (rest ++ [dp.1]) = some dp.2 :=
        fun dp hdp => hch dp (List.mem_cons_of_mem _ hdp)
      cases sub with
      | file =>
          simp only [walkEntries, hpath, paramsIsLeaf, specParamsIsLeaf,
            if_pos rfl, hres]
          rfl
      | dir es' =>
          simp only [walkEntries, hpath, paramsIsLeaf, specParamsIsLeaf,
            if_pos rfl, hres]
          cases hb : es'.any (fun e => e.1 = "params") with
          | true =>
              exact walkEntries_params_spec_eq root fs hs rest tl
                (aset acc d (.atom (root :: (rest ++ [d])))) hch'
          | false =>
              rw [walkNode_params_spec_eq root fs hs (rest ++ [d])
                (.dir es') hres]
              cases hw : walkNode (specParamsIsLeaf root fs)
                  (root :: (rest ++ [d])) (.dir es') with
              | error e => rfl
              | ok r =>
                  exact walkEntries_params_spec_eq root fs hs rest tl
                    (aset acc d r) hch'

end

/-- C8: `walk_parameter_dir(root)` equals `walk_dir(root, p)` where `p`
holds for a path exactly when the directory at that path contains an entry
named `"params"` (on a wellformed filesystem tree, whose sibling names are
distinct as on a real filesystem). -/
theorem walk_parameter_dir_eq_walk_dir_spec (root : String) (fs : FS)
    (hs : FS.sane fs = true) :
    walk_parameter_dir root fs
      = walk_dir root fs (specParamsIsLeaf root fs) :=
  walkNode_params_spec_eq root fs hs [] fs (by cases fs <;> rfl)

/-- Witness for `walk_parameter_dir_eq_walk_dir_spec` on a small concrete
filesystem tree. -/
theorem walk_parameter_dir_eq_walk_dir_spec_witness :
    walk_parameter_dir "root"
        (FS.dir [("layer0", FS.dir [("params", FS.dir [])])])
      = walk_dir "root" (FS.dir [("layer0", FS.dir [("params", FS.dir [])])])
          (specParamsIsLeaf "root"
            (FS.dir [("layer0", FS.dir [("params", FS.dir [])])])) :=
  walk_parameter_dir_eq_walk_dir_spec "root"
    (FS.dir [("layer0", FS.dir [("params", FS.dir [])])]) (by decide)

/-! Lemmas about the instrumented walk: its result agrees with `walkNode`,
and its trace records exactly the paths the predicate was evaluated on. -/

mutual

theorem walkNodeT_fst (lf : List String → Except Unit Bool)
    (p : List String) (n : FS) :
    (walkNodeT lf p n).1 = walkNode lf p n := by
  cases n with
  | file => rfl
  | dir es =>
      have h := walkEntriesT_fst lf p es []
      cases hw : walkEntriesT lf p es [] with
      | mk r tr =>
          rw [hw] at h
          simp only [walkNodeT, hw, walkNode, ← h]
          cases r <;> rfl

theorem walkEntriesT_fst (lf : List String → Except Unit Bool)
    (p : List String) (iter : List (String × FS))
    (acc : List (String × Val (List String))) :
    (walkEntriesT lf p iter acc).1 = walkEntries lf p iter acc := by
  cases iter with
  | nil => rfl
  | cons hd tl =>
      obtain ⟨d, sub⟩ := hd
      cases hlf : lf (p ++ [d]) with
      | error e => simp [walkEntriesT, walkEntries, hlf]
      | ok b =>
          cases b with
          | true =>
              have h := walkEntriesT_fst lf p tl
                (aset acc d (.atom (p ++ [d])))
              cases hw : walkEntriesT lf p tl
                  (aset acc d (.atom (p ++ [d]))) with
              | mk r tr =>
                  rw [hw] at h
                  simp only [walkEntriesT, hlf, hw, walkEntries, ← h]
          | false =>
              have hn := walkNodeT_fst lf (p ++ [d]) sub
              cases hwn : walkNodeT lf (p ++ [d]) sub with
              | mk rn trn =>
                  rw [hwn] at hn
                  simp only [walkEntriesT, hlf, hwn, walkEntries, ← hn]
                  cases rn with
                  | error e => rfl
                  | ok rsub =>
                      have h := walkEntriesT_fst lf p tl (aset acc d rsub)
                      cases hw : walkEntriesT lf p tl (aset acc d rsub) with
                      | mk r tr =>
                          rw [hw] at h
                          simp only [hw, ← h]

end

theorem prefix_comparable {α : Type} :
    ∀ (l3 l1 l2 : List α), l1 <+: l3 → l2 <+: l3 →
      l1 <+: l2 ∨ l2 <+: l1 := by
  intro l3
  induction l3 with
  | nil =>
      intro l1 l2 h1 h2
      rw [List.prefix_nil] at h1 h2
      subst h1; subst h2
      exact Or.inl ( List.nil_prefix)
  | cons a tl ih =>
      intro l1 l2 h1 h2
      cases l1 with
      | nil => exact Or.inl ( List.nil_prefix)
      | cons b t1 =>
          cases l2 with
          | nil => exact Or.inr ( List.nil_prefix)
          | cons c t2 =>
              rw [List.cons_prefix_cons] at h1 h2
              rcases ih t1 t2 h1.2 h2.2 with h | h
              · exact Or.inl (by
                  rw [List.cons_prefix_cons]
                  exact ⟨h1.1.trans h2.1.symm, h⟩)
              · exact Or.inr (by
                  rw [List.cons_prefix_cons]
                  exact ⟨h2.1.trans h1.1.symm, h⟩)

theorem no_strict_between {α : Type} (p r : List α) (d : α)
    (h1 : p <+: r) (h2 : r <+: p ++ [d]) (h3 : r ≠ p)
    (h4 : r ≠ p ++ [d]) : False := by
  have e1 : p.length ≤ r.length := h1.length_le
  have e2 : r.length ≤ p.length + 1 := by
    have := h2.length_le
    simpa using this
  have ne1 : p.length ≠ r.length := by
    intro he
    exact h3 (List.IsPrefix.eq_of_length h1 he).symm
  have ne2 : r.length ≠ p.length + 1 := by
    intro he
    apply h4
    apply List.IsPrefix.eq_of_length h2
    simpa using he
  omega

mutual

theorem walkNodeT_trace_ext (lf : List String → Except Unit Bool)
    (p : List String) (n : FS) :
    ∀ q ∈ (walkNodeT lf p n).2, ∃ s, s ≠ [] ∧ q = p ++ s := by
  cases n with
  | file => intro q hq; simp [walkNodeT] at hq
  | dir es =>
      intro q hq
      have h := walkEntriesT_trace_ext lf p es []
      cases hw : walkEntriesT lf p es [] with
      | mk r tr =>
          rw [hw] at h
          apply h
          simp only [walkNodeT, hw] at hq
          cases r with
          | error e => exact hq
          | ok m => exact hq

theorem walkEntriesT_trace_ext (lf : List String → Except Unit Bool)
    (p : List String) (iter : List (String × FS))
    (acc : List (String × Val (List String))) :
    ∀ q ∈ (walkEntriesT lf p iter acc).2, ∃ s, s ≠ [] ∧ q = p ++ s := by
  cases iter with
  | nil => intro q hq; simp [walkEntriesT] at hq
  | cons hd tl =>
      obtain ⟨d, sub⟩ := hd
      intro q hq
      cases hlf : lf (p ++ [d]) with
      | error e =>
          simp only [walkEntriesT, hlf] at hq
          rcases List.mem_singleton.mp hq with rfl
          exact ⟨[d], by simp, rfl⟩
      | ok b =>
          cases b with
          | true =>
              have h := walkEntriesT_trace_ext lf p tl
                (aset acc d (.atom (p ++ [d])))
              cases hw : walkEntriesT lf p tl
                  (aset acc d (.atom (p ++ [d]))) with
              | mk r tr =>
                  rw [hw] at h
                  simp only [walkEntriesT, hlf, hw] at hq
                  rcases List.mem_cons.mp hq with rfl | hq'
                  · exact ⟨[d], by simp, rfl⟩
                  · exact h q hq'
          | false =>
              have hn := walkNodeT_trace_ext lf (p ++ [d]) sub
              cases hwn : walkNodeT lf (p ++ [d]) sub with
              | mk rn trn =>
                  rw [hwn] at hn
                  cases rn with
                  | error e =>
                      simp only [walkEntriesT, hlf, hwn] at hq
                      rcases List.mem_cons.mp hq with rfl | hq'
                      · exact ⟨[d], by simp, rfl⟩
                      · rcases hn q hq' with ⟨s, hs, rfl⟩
                        exact ⟨[d] ++ s, by simp, by simp⟩
                  | ok rsub =>
                      have h := walkEntriesT_trace_ext lf p tl
                        (aset acc d rsub)
                      cases hw : walkEntriesT lf p tl (aset acc d rsub) with
                      | mk r tr =>
                          rw [hw] at h
                          simp only [walkEntriesT, hlf, hwn, hw] at hq
                          rcases List.mem_cons.mp hq with rfl | hq'
                          · exact ⟨[d], by simp, rfl⟩
                          · rcases List.mem_append.mp hq' with hq1 | hq2
                            · rcases hn q hq1 with ⟨s, hs, rfl⟩
                              exact ⟨[d] ++ s, by simp, by simp⟩
                            · exact h q hq2

end

mutual

theorem walkNodeT_trace_anc (lf : List String → Except Unit Bool)
    (p : List String) (n : FS) :
    ∀ q ∈ (walkNodeT lf p n).2, ∀ r : List String,
      p <+: r → r <+: q → r ≠ p → r ≠ q → lf r = .ok false := by
  cases n with
  | file => intro q hq; simp [walkNodeT] at hq
  | dir es =>
      intro q hq
      have h := walkEntriesT_trace_anc lf p es []
      cases hw : walkEntriesT lf p es [] with
      | mk r0 tr =>
          rw [hw] at h
          apply h
          simp only [walkNodeT, hw] at hq
          cases r0 with
          | error e => exact hq
          | ok m => exact hq

theorem walkEntriesT_trace_anc (lf : List String → Except Unit Bool)
    (p : List String) (iter : List (String × FS))
    (acc : List (String × Val (List String))) :
    ∀ q ∈ (walkEntriesT lf p iter acc).2, ∀ r : List String,
      p <+: r → r <+: q → r ≠ p → r ≠ q → lf r = .ok false := by
  cases iter with
  | nil => intro q hq; simp [walkEntriesT] at hq
  | cons hd tl =>
      obtain ⟨d, sub⟩ := hd
      intro q hq r h1 h2 h3 h4
      cases hlf : lf (p ++ [d]) with
      | error e =>
          simp only [walkEntriesT, hlf] at hq
          rcases List.mem_singleton.mp hq with rfl
          exact (no_strict_between p r d h1 h2 h3 h4).elim
      | ok b =>
          cases b with
          | true =>
              have h := walkEntriesT_trace_anc lf p tl
                (aset acc d (.atom (p ++ [d])))
              cases hw : walkEntriesT lf p tl
                  (aset acc d (.atom (p ++ [d]))) with
              | mk r0 tr =>
                  rw [hw] at h
                  simp only [walkEntriesT, hlf, hw] at hq
                  rcases List.mem_cons.mp hq with rfl | hq2
                  · exact (no_strict_between p r d h1 h2 h3 h4).elim
                  · exact h q hq2 r h1 h2 h3 h4
          | false =>
              have hnT := walkNodeT_trace_ext lf (p ++ [d]) sub
              have hnA := walkNodeT_trace_anc lf (p ++ [d]) sub
              cases hwn : walkNodeT lf (p ++ [d]) sub with
              | mk rn trn =>
                  rw [hwn] at hnT hnA
                  have hsubcase : ∀ q2, q2 ∈ trn → r <+: q2 → r ≠ q2 →
                      lf r = .ok false := by
                    intro q2 hq2 hr2 hrne
                    have hdq : (p ++ [d]) <+: q2 := by
                      rcases hnT q2 hq2 with ⟨s, _, rfl⟩
                      exact ⟨s, rfl⟩
                    by_cases hrd : r = p ++ [d]
                    · exact hrd ▸ hlf
                    · rcases prefix_comparable q2 r (p ++ [d]) hr2 hdq
                          with hc | hc
                      · exact (no_strict_between p r d h1 hc h3 hrd).elim
                      · exact hnA q2 hq2 r hc hr2 hrd hrne
                  cases rn with
                  | error e =>
                      simp only [walkEntriesT, hlf, hwn] at hq
                      rcases List.mem_cons.mp hq with rfl | hq2
                      · exact (no_strict_between p r d h1 h2 h3 h4).elim
                      · exact hsubcase q hq2 h2 h4
                  | ok rsub =>
                      have h := walkEntriesT_trace_anc lf p tl
                        (aset acc d rsub)
                      cases hw : walkEntriesT lf p tl (aset acc d rsub) with
                      | mk r0 tr =>
                          rw [hw] at h
                          simp only [walkEntriesT, hlf, hwn, hw] at hq
                          rcases List.mem_cons.mp hq with rfl | hq2
                          · exact (no_strict_between p r d h1 h2 h3 h4).elim
                          · rcases List.mem_append.mp hq2 with hq3 | hq3
                            · exact hsubcase q hq3 h2 h4
                            · exact h q hq3 r h1 h2 h3 h4

end

theorem walkEntriesT_children (lf : List String → Except Unit Bool)
    (p : List String) :
    ∀ (iter : List (String × FS))
      (acc : List (String × Val (List String)))
      (m : List (String × Val (List String))),
      (walkEntriesT lf p iter acc).1 = .ok m →
      ∀ dp ∈ iter, p ++ [dp.1] ∈ (walkEntriesT lf p iter acc).2 := by
  intro iter
  induction iter with
  | nil => intro acc m _ dp hdp; simp at hdp
  | cons hd tl ih =>
      intro acc m hok dp hdp
      obtain ⟨d, sub⟩ := hd
      cases hlf : lf (p ++ [d]) with
      | error e =>
          rw [show walkEntriesT lf p ((d, sub) :: tl) acc
              = (.error e, [p ++ [d]]) by
            simp [walkEntriesT, hlf]] at hok
          cases hok
      | ok b =>
          cases b with
          | true =>
              cases hw : walkEntriesT lf p tl
                  (aset acc d (.atom (p ++ [d]))) with
              | mk r tr =>
                  simp only [walkEntriesT, hlf, hw] at hok ⊢
                  rcases List.mem_cons.mp hdp with rfl | hdp2
                  · exact List.mem_cons_self _ _
                  · have := ih (aset acc d (.atom (p ++ [d]))) m
                      (by rw [hw]; exact hok) dp hdp2
                    rw [hw] at this
                    exact List.mem_cons_of_mem _ this
          | false =>
              cases hwn : walkNodeT lf (p ++ [d]) sub with
              | mk rn trn =>
                  cases rn with
                  | error e =>
                      rw [show walkEntriesT lf p ((d, sub) :: tl) acc
                          = (.error e, (p ++ [d]) :: trn) by
                        simp [walkEntriesT, hlf, hwn]] at hok
                      cases hok
                  | ok rsub =>
                      cases hw : walkEntriesT lf p tl (aset acc d rsub) with
                      | mk r tr =>
                          simp only [walkEntriesT, hlf, hwn, hw]
                            at hok ⊢
                          rcases List.mem_cons.mp hdp with rfl | hdp2
                          · exact List.mem_cons_self _ _
                          · have := ih (aset acc d rsub) m
                              (by rw [hw]; exact hok) dp hdp2
                            rw [hw] at this
                            refine List.mem_cons_of_mem _ ?_
                            exact List.mem_append.mpr (Or.inr this)

theorem walkNodeT_children (lf : List String → Except Unit Bool)
    (p : List String) (es : List (String × FS))
    (v : Val (List String))
    (h : (walkNodeT lf p (.dir es)).1 = .ok v) :
    ∀ dp ∈ es, p ++ [dp.1] ∈ (walkNodeT lf p (.dir es)).2 := by
  intro dp hdp
  cases hw : walkEntriesT lf p es [] with
  | mk r tr =>
      simp only [walkNodeT, hw] at h ⊢
      cases r with
      | error e => cases h
      | ok m =>
          have := walkEntriesT_children lf p es [] m (by rw [hw]) dp hdp
          rw [hw] at this
          exact this

theorem walkEntries_aget_skip (lf : List String → Except Unit Bool)
    (p : List String) (d : String) :
    ∀ (iter : List (String × FS))
      (acc m : List (String × Val (List String))),
      walkEntries lf p iter acc = .ok m →
      (∀ dp ∈ iter, dp.1 ≠ d) → aget m d = aget acc d := by
  intro iter
  induction iter with
  | nil =>
      intro acc m h _
      simp only [walkEntries, Except.ok.injEq] at h
      rw [h]
  | cons hd tl ih =>
      intro acc m h hne
      obtain ⟨d0, sub⟩ := hd
      have hd0 : d0 ≠ d := hne (d0, sub) (by simp)
      cases hlf : lf (p ++ [d0]) with
      | error e => simp [walkEntries, hlf] at h
      | ok b =>
          cases b with
          | true =>
              simp only [walkEntries, hlf] at h
              rw [ih _ m h (fun dp hdp => hne dp
                (List.mem_cons_of_mem _ hdp))]
              exact aget_aset_ne _ _ _ _ hd0
          | false =>
              simp only [walkEntries, hlf] at h
              cases hwn : walkNode lf (p ++ [d0]) sub with
              | error e => rw [hwn] at h; cases h
              | ok r =>
                  rw [hwn] at h
                  rw [ih _ m h (fun dp hdp => hne dp
                    (List.mem_cons_of_mem _ hdp))]
                  exact aget_aset_ne _ _ _ _ hd0

theorem walkEntries_leaf_binding (lf : List String → Except Unit Bool)
    (p : List String) :
    ∀ (iter : List (String × FS))
      (acc m : List (String × Val (List String))),
      walkEntries lf p iter acc = .ok m →
      (iter.map Prod.fst).Nodup →
      ∀ dp ∈ iter, lf (p ++ [dp.1]) = .ok true →
        aget m dp.1 = some (.atom (p ++ [dp.1])) := by
  intro iter
  induction iter with
  | nil => intro acc m _ _ dp hdp; simp at hdp
  | cons hd tl ih =>
      intro acc m h hn dp hdp hleaf
      obtain ⟨d0, sub⟩ := hd
      simp only [List.map_cons, List.nodup_cons] at hn
      rcases List.mem_cons.mp hdp with rfl | hdp2
      · simp only at hleaf
        simp only [walkEntries, hleaf] at h
        have hskip := walkEntries_aget_skip lf p d0 tl _ m h
          (fun dp2 hdp2 hne => hn.1
            (hne ▸ List.mem_map.mpr ⟨dp2, hdp2, rfl⟩))
        rw [hskip, aget_aset_self]
      · cases hlf : lf (p ++ [d0]) with
        | error e => simp [walkEntries, hlf] at h
        | ok b =>
            cases b with
            | true =>
                simp only [walkEntries, hlf] at h
                exact ih _ m h hn.2 dp hdp2 hleaf
            | false =>
                simp only [walkEntries, hlf] at h
                cases hwn : walkNode lf (p ++ [d0]) sub with
                | error e => rw [hwn] at h; cases h
                | ok r =>
                    rw [hwn] at h
                    exact ih _ m h hn.2 dp hdp2 hleaf

theorem walkEntries_branch_binding (lf : List String → Except Unit Bool)
    (p : List String) :
    ∀ (iter : List (String × FS))
      (acc m : List (String × Val (List String))),
      walkEntries lf p iter acc = .ok m →
      (iter.map Prod.fst).Nodup →
      ∀ dp ∈ iter, lf (p ++ [dp.1]) = .ok false →
        ∃ r, walkNode lf (p ++ [dp.1]) dp.2 = .ok r ∧
          aget m dp.1 = some r := by
  intro iter
  induction iter with
  | nil => intro acc m _ _ dp hdp; simp at hdp
  | cons hd tl ih =>
      intro acc m h hn dp hdp hleaf
      obtain ⟨d0, sub⟩ := hd
      simp only [List.map_cons, List.nodup_cons] at hn
      rcases List.mem_cons.mp hdp with rfl | hdp2
      · simp only at hleaf
        simp only [walkEntries, hleaf] at h
        cases hwn : walkNode lf (p ++ [d0]) sub with
        | error e => rw [hwn] at h; cases h
        | ok r =>
            rw [hwn] at h
            refine ⟨r, rfl, ?_⟩
            have hskip := walkEntries_aget_skip lf p d0 tl _ m h
              (fun dp2 hdp2 hne => hn.1
                (hne ▸ List.mem_map.mpr ⟨dp2, hdp2, rfl⟩))
            rw [hskip, aget_aset_self]
      · cases hlf : lf (p ++ [d0]) with
        | error e => simp [walkEntries, hlf] at h
        | ok b =>
            cases b with
            | true =>
                simp only [walkEntries, hlf] at h
                exact ih _ m h hn.2 dp hdp2 hleaf
            | false =>
                simp only [walkEntries, hlf] at h
                cases hwn : walkNode lf (p ++ [d0]) sub with
                | error e => rw [hwn] at h; cases h
                | ok r =>
                    rw [hwn] at h
                    exact ih _ m h hn.2 dp hdp2 hleaf

theorem walkEntries_leaf_content_irrelevant
    (lf : List String → Except Unit Bool) (p : List String) (d : String)
    (hlf : lf (p ++ [d]) = .ok true) :
    ∀ (es1 : List (String × FS)) (sub sub' : FS) (es2 : List (String × FS))
      (acc : List (String × Val (List String))),
      walkEntries lf p (es1 ++ (d, sub) :: es2) acc
        = walkEntries lf p (es1 ++ (d, sub') :: es2) acc := by
  intro es1
  induction es1 with
  | nil =>
      intro sub sub' es2 acc
      simp only [List.nil_append, walkEntries, hlf]
  | cons hd tl ih =>
      intro sub sub' es2 acc
      obtain ⟨d0, s0⟩ := hd
      simp only [List.cons_append, walkEntries]
      cases hlf0 : lf (p ++ [d0]) with
      | error e => rfl
      | ok b =>
          cases b with
          | true => exact ih sub sub' es2 _
          | false =>
              cases hwn : walkNode lf (p ++ [d0]) s0 with
              | error e => rfl
              | ok r => exact ih sub sub' es2 _

theorem walkNode_dir_inv (lf : List String → Except Unit Bool)
    (p : List String) (es : List (String × FS)) (v : Val (List String))
    (h : walkNode lf p (.dir es) = .ok v) :
    ∃ m, v = .dict m ∧ walkEntries lf p es [] = .ok m := by
  cases hw : walkEntries lf p es [] with
  | error e => simp [walkNode, hw] at h
  | ok m =>
      simp only [walkNode, hw, Except.ok.injEq] at h
      exact ⟨m, h.symm, rfl⟩

/-- C5: `walk_dir` maps each entry judged a leaf to that entry's full path
(never its contents, whose subtree is irrelevant to the result), records
under each entry not judged a leaf the result of recursing into it, never
evaluates the predicate on anything below a leaf-marked entry, and
evaluates the predicate on the root's children but never on the root
itself (every queried path strictly extends the root path). -/
theorem walk_dir_leaf_discipline :
    (∀ (lf : List String → Except Unit Bool) (root : String) (fs : FS)
      (q : List String), q ∈ (walkNodeT lf [root] fs).2 →
        ∃ s, s ≠ [] ∧ q = [root] ++ s) ∧
    (∀ (lf : List String → Except Unit Bool) (root : String) (fs : FS)
      (q r : List String), q ∈ (walkNodeT lf [root] fs).2 →
        [root] <+: r → r <+: q → r ≠ [root] → r ≠ q → lf r = .ok false) ∧
    (∀ (lf : List String → Except Unit Bool) (root : String)
      (es : List (String × FS)) (v : Val (List String)),
        (walkNodeT lf [root] (.dir es)).1 = .ok v →
        ∀ dp ∈ es, [root] ++ [dp.1] ∈ (walkNodeT lf [root] (.dir es)).2) ∧
    (∀ (lf : List String → Except Unit Bool) (root : String) (fs : FS),
        (walkNodeT lf [root] fs).1 = walk_dir root fs lf) ∧
    (∀ (lf : List String → Except Unit Bool) (root : String)
      (es : List (String × FS)) (v : Val (List String)),
        walk_dir root (.dir es) lf = .ok v →
        (es.map Prod.fst).Nodup →
        ∃ m, v = .dict m ∧ ∀ dp ∈ es,
          (lf ([root] ++ [dp.1]) = .ok true →
            aget m dp.1 = some (.atom ([root] ++ [dp.1]))) ∧
          (lf ([root] ++ [dp.1]) = .ok false →
            ∃ r, walkNode lf ([root] ++ [dp.1]) dp.2 = .ok r ∧
              aget m dp.1 = some r)) ∧
    (∀ (lf : List String → Except Unit Bool) (p : List String)
      (d : String) (sub sub' : FS) (es1 es2 : List (String × FS))
      (acc : List (String × Val (List String))),
        lf (p ++ [d]) = .ok true →
        walkEntries lf p (es1 ++ (d, sub) :: es2) acc
          = walkEntries lf p (es1 ++ (d, sub') :: es2) acc) := by
  refine ⟨?_, ?_, ?_, ?_, ?_, ?_⟩
  · intro lf root fs q hq
    exact walkNodeT_trace_ext lf [root] fs q hq
  · intro lf root fs q r hq h1 h2 h3 h4
    exact walkNodeT_trace_anc lf [root] fs q hq r h1 h2 h3 h4
  · intro lf root es v hok dp hdp
    exact walkNodeT_children lf [root] es v hok dp hdp
  · intro lf root fs
    exact walkNodeT_fst lf [root] fs
  · intro lf root es v hok hn
    rcases walkNode_dir_inv lf [root] es v hok with ⟨m, rfl, hw⟩
    refine ⟨m, rfl, fun dp hdp => ⟨?_, ?_⟩⟩
    · intro hleaf
      exact walkEntries_leaf_binding lf [root] es [] m hw hn dp hdp hleaf
    · intro hleaf
      exact walkEntries_branch_binding lf [root] es [] m hw hn dp hdp hleaf
  · intro lf p d sub sub' es1 es2 acc hleaf
    exact walkEntries_leaf_content_irrelevant lf p d hleaf es1 sub sub'
      es2 acc

/-- Witness for `walk_dir_leaf_discipline`: on a one-entry directory with
an always-true predicate, the child's path is queried. -/
theorem walk_dir_leaf_discipline_witness :
    ["r", "x"] ∈ (walkNodeT (fun _ => Except.ok true) ["r"]
      (.dir [("x", FS.file)])).2 :=
  walk_dir_leaf_discipline.2.2.1 (fun _ => Except.ok true) "r"
    [("x", FS.file)] (Val.dict [("x", Val.atom ["r", "x"])]) rfl
    ("x", FS.file) (by simp)

/-! Infrastructure for deep equality: reflexivity, transitivity, and
congruence with respect to the dict operations. -/

theorem aget_sizeOf {α : Type} :
    ∀ (t : List (String × Val α)) (k : String) (w : Val α),
      aget t k = some w → sizeOf w < sizeOf (Val.dict t) := by
  intro t
  induction t with
  | nil => intro k w h; simp [aget] at h
  | cons hd tl ih =>
      intro k w h
      obtain ⟨k', v'⟩ := hd
      simp only [aget] at h
      by_cases h1 : k' = k
      · rw [if_pos h1] at h
        cases h
        simp
        omega
      · rw [if_neg h1] at h
        have := ih k w h
        simp at this ⊢
        omega

theorem veq_refl {α : Type} : (v : Val α) → VEq v v
  | .atom a => .atom a
  | .dict t => .dict t t (fun k =>
      match h : aget t k with
      | none => .none
      | some w => .some (veq_refl w))
termination_by v => sizeOf v
decreasing_by exact aget_sizeOf t k w h

theorem deq_refl {α : Type} (t : List (String × Val α)) : DEq t t := by
  intro k
  cases h : aget t k with
  | none => exact .none
  | some w => exact .some (veq_refl w)

theorem veq_trans {α : Type} :
    (a b c : Val α) → VEq a b → VEq b c → VEq a c
  | .atom _, _, _, .atom x, h2 => h2
  | .dict t1, _, c, .dict _ t2 h12, h2 => by
      cases h2 with
      | dict _ t3 h23 =>
          refine .dict t1 t3 (fun k => ?_)
          have r1 := h12 k
          have r2 := h23 k
          cases hg1 : aget t1 k with
          | none =>
              rw [hg1] at r1
              cases hg2 : aget t2 k with
              | none =>
                  rw [hg2] at r2
                  cases hg3 : aget t3 k with
                  | none => exact .none
                  | some w3 => rw [hg3] at r2; cases r2
              | some w2 => rw [hg2] at r1; cases r1
          | some w1 =>
              rw [hg1] at r1
              cases hg2 : aget t2 k with
              | none => rw [hg2] at r1; cases r1
              | some w2 =>
                  rw [hg2] at r1
                  rw [hg2] at r2
                  cases hg3 : aget t3 k with
                  | none => rw [hg3] at r2; cases r2
                  | some w3 =>
                      rw [hg3] at r2
                      cases r1 with
                      | some hr1 =>
                          cases r2 with
                          | some hr2 =>
                              exact .some (veq_trans w1 w2 w3 hr1 hr2)
termination_by a => sizeOf a
decreasing_by exact aget_sizeOf t1 k w1 hg1

theorem deq_trans {α : Type} (t1 t2 t3 : List (String × Val α))
    (h1 : DEq t1 t2) (h2 : DEq t2 t3) : DEq t1 t3 := by
  intro k
  have r1 := h1 k
  have r2 := h2 k
  cases hg1 : aget t1 k with
  | none =>
      rw [hg1] at r1
      cases hg2 : aget t2 k with
      | none =>
          rw [hg2] at r2
          cases hg3 : aget t3 k with
          | none => exact .none
          | some w3 => rw [hg3] at r2; cases r2
      | some w2 => rw [hg2] at r1; cases r1
  | some w1 =>
      rw [hg1] at r1
      cases hg2 : aget t2 k with
      | none => rw [hg2] at r1; cases r1
      | some w2 =>
          rw [hg2] at r1 r2
          cases hg3 : aget t3 k with
          | none => rw [hg3] at r2; cases r2
          | some w3 =>
              rw [hg3] at r2
              cases r1 with
              | some hr1 =>
                  cases r2 with
                  | some hr2 => exact .some (veq_trans w1 w2 w3 hr1 hr2)

theorem ERel_trans {β : Type} {r : β → β → Prop}
    (ht : ∀ a b c, r a b → r b c → r a c) :
    ∀ (x y z : Except Unit β), ERel r x y → ERel r y z → ERel r x z := by
  intro x y z h1 h2
  cases x <;> cases y <;> cases z <;>
    simp [ERel] at h1 h2 ⊢ <;> exact ht _ _ _ h1 h2

theorem DEq_aset {α : Type} (t t' : List (String × Val α)) (k : String)
    (w w' : Val α) (h : DEq t t') (hw : VEq w w') :
    DEq (aset t k w) (aset t' k w') := by
  intro k0
  by_cases hk : k0 = k
  · subst hk
    rw [aget_aset_self, aget_aset_self]
    exact .some hw
  · rw [aget_aset_ne t k k0 w (fun he => hk he.symm),
      aget_aset_ne t' k k0 w' (fun he => hk he.symm)]
    exact h k0

theorem aset_aset_self {κ β : Type} [DecidableEq κ]
    (t : List (κ × β)) (k : κ) (v w : β) :
    aset (aset t k v) k w = aset t k w := by
  induction t with
  | nil => simp [aset]
  | cons hd tl ih =>
      obtain ⟨k', v'⟩ := hd
      by_cases h : k' = k
      · simp [aset, h]
      · simp [aset, h, ih]

theorem aset_comm_DEq {α : Type} (t : List (String × Val α))
    (k1 k2 : String) (x y : Val α) (h : k1 ≠ k2) :
    DEq (aset (aset t k1 x) k2 y) (aset (aset t k2 y) k1 x) := by
  intro k0
  by_cases h1 : k0 = k1
  · subst h1
    rw [aget_aset_ne _ k2 k0 y (Ne.symm h)]
    rw [aget_aset_self, aget_aset_self]
    exact .some (veq_refl x)
  · by_cases h2 : k0 = k2
    · subst h2
      rw [aget_aset_self]
      rw [aget_aset_ne _ k1 k0 x (fun he => h1 he.symm)]
      rw [aget_aset_self]
      exact .some (veq_refl y)
    · rw [aget_aset_ne _ k2 k0 y (fun he => h2 he.symm),
        aget_aset_ne _ k1 k0 x (fun he => h1 he.symm),
        aget_aset_ne _ k1 k0 x (fun he => h1 he.symm),
        aget_aset_ne _ k2 k0 y (fun he => h2 he.symm)]
      cases hg : aget t k0 with
      | none => exact .none
      | some w => exact .some (veq_refl w)

theorem insertPath_eq_child {α : Type} (t : List (String × Val α))
    (k : String) (r : List String) (v : Val α) :
    insertPath t (k :: r) v
      = match insertChild (aget t k) r v with
        | .error _ => .error ()
        | .ok x => .ok (aset t k x) := by
  cases r with
  | nil =>
      cases hg : aget t k with
      | none => simp [insertPath, insertChild]
      | some w => cases w <;> simp [insertPath, insertChild]
  | cons k2 rest =>
      cases hg : aget t k with
      | none =>
          simp only [insertPath, hg, insertChild]
          rw [insertPath_nil (k2 :: rest) v (by simp)]
      | some w =>
          cases w with
          | atom a => simp [insertPath, hg, insertChild]
          | dict sub =>
              cases hs : insertPath sub (k2 :: rest) v <;>
                simp [insertPath, hg, insertChild, hs]

theorem insertPath_congr {α : Type} :
    ∀ (p : List String) (t t' : List (String × Val α)) (v : Val α),
      DEq t t' → ERel DEq (insertPath t p v) (insertPath t' p v) := by
  intro p
  induction p with
  | nil => intro t t' v _; simp [insertPath, ERel]
  | cons k tail ih =>
      intro t t' v h
      cases tail with
      | nil =>
          simp only [insertPath]
          exact DEq_aset t t' k v v h (veq_refl v)
      | cons k2 rest =>
          have hk := h k
          cases hg : aget t k with
          | none =>
              cases hg' : aget t' k with
              | none =>
                  simp only [insertPath, hg, hg']
                  cases hs : insertPath ([] : List (String × Val α))
                      (k2 :: rest) v with
                  | error e => simp [ERel]
                  | ok sub =>
                      exact DEq_aset t t' k (.dict sub) (.dict sub) h
                        (veq_refl _)
              | some w' => rw [hg, hg'] at hk; cases hk
          | some w =>
              cases hg' : aget t' k with
              | none => rw [hg, hg'] at hk; cases hk
              | some w' =>
                  rw [hg, hg'] at hk
                  cases hk with
                  | some hw =>
                      cases hw with
                      | atom a => simp [insertPath, hg, hg', ERel]
                      | dict s s' hss =>
                          have hrec := ih s s' v hss
                          simp only [insertPath, hg, hg']
                          cases hA : insertPath s (k2 :: rest) v with
                          | error e =>
                              cases hB : insertPath s' (k2 :: rest) v with
                              | error e' => simp [ERel]
                              | ok sB =>
                                  rw [hA, hB] at hrec
                                  simp [ERel] at hrec
                          | ok sA =>
                              cases hB : insertPath s' (k2 :: rest) v with
                              | error e' =>
                                  rw [hA, hB] at hrec
                                  simp [ERel] at hrec
                              | ok sB =>
                                  rw [hA, hB] at hrec
                                  exact DEq_aset t t' k (.dict sA)
                                    (.dict sB) h (VEq.dict sA sB hrec)

theorem ins2_nil {α : Type} (ra rb : List String) (va vb : Val α)
    (ha : ra ≠ []) :
    ins2 ([] : List (String × Val α)) ra va rb vb
      = insertPath (chainOf ra va) rb vb := by
  simp [ins2, insertPath_nil ra va ha]

theorem ins2_same_head_dict {α : Type} (t : List (String × Val α))
    (k : String) (sub : List (String × Val α)) (ra rb : List String)
    (va vb : Val α) (hg : aget t k = some (.dict sub))
    (ha : ra ≠ []) (hb : rb ≠ []) :
    ins2 t (k :: ra) va (k :: rb) vb
      = match ins2 sub ra va rb vb with
        | .error _ => .error ()
        | .ok s => .ok (aset t k (.dict s)) := by
  cases ra with
  | nil => cases ha rfl
  | cons x xs =>
      cases rb with
      | nil => cases hb rfl
      | cons y ys =>
          rw [ins2, insertPath_eq_child t k (x :: xs) va, hg]
          cases hA : insertPath sub (x :: xs) va with
          | error e => simp [insertChild, hA, ins2]
          | ok s1 =>
              simp only [insertChild, hA]
              rw [insertPath_eq_child _ k (y :: ys) vb, aget_aset_self]
              cases hB : insertPath s1 (y :: ys) vb with
              | error e => simp [insertChild, hB, ins2, hA]
              | ok s2 =>
                  simp only [insertChild, hB, ins2, hA]
                  rw [aset_aset_self]

theorem ins2_same_head_none {α : Type} (t : List (String × Val α))
    (k : String) (ra rb : List String) (va vb : Val α)
    (hg : aget t k = none) (ha : ra ≠ []) (hb : rb ≠ []) :
    ins2 t (k :: ra) va (k :: rb) vb
      = match insertPath (chainOf ra va) rb vb with
        | .error _ => .error ()
        | .ok s => .ok (aset t k (.dict s)) := by
  cases ra with
  | nil => cases ha rfl
  | cons x xs =>
      cases rb with
      | nil => cases hb rfl
      | cons y ys =>
          rw [ins2, insertPath_eq_child t k (x :: xs) va, hg]
          simp only [insertChild]
          rw [insertPath_eq_child _ k (y :: ys) vb, aget_aset_self]
          cases hB : insertPath (chainOf (x :: xs) va) (y :: ys) vb with
          | error e => simp [insertChild, hB]
          | ok s2 =>
              simp only [insertChild, hB]
              rw [aset_aset_self]

theorem ins2_same_head_atom {α : Type} (t : List (String × Val α))
    (k : String) (a : α) (ra rb : List String) (va vb : Val α)
    (hg : aget t k = some (.atom a)) (ha : ra ≠ []) (hb : rb ≠ []) :
    ins2 t (k :: ra) va (k :: rb) vb = .error () := by
  cases ra with
  | nil => cases ha rfl
  | cons x xs =>
      rw [ins2, insertPath_eq_child t k (x :: xs) va, hg]
      simp [insertChild]

theorem ins2_diff_head {α : Type} (t : List (String × Val α))
    (k1 k2 : String) (r1 r2 : List String) (v1 v2 : Val α)
    (hk : k1 ≠ k2) :
    ins2 t (k1 :: r1) v1 (k2 :: r2) v2
      = match insertChild (aget t k1) r1 v1 with
        | .error _ => .error ()
        | .ok x1 =>
            match insertChild (aget t k2) r2 v2 with
            | .error _ => .error ()
            | .ok x2 => .ok (aset (aset t k1 x1) k2 x2) := by
  rw [ins2, insertPath_eq_child t k1 r1 v1]
  cases hA : insertChild (aget t k1) r1 v1 with
  | error e => rfl
  | ok x1 =>
      dsimp only
      rw [insertPath_eq_child _ k2 r2 v2,
        aget_aset_ne t k1 k2 x1 hk]

theorem ins2_swap {α : Type} :
    ∀ (p1 p2 : List String) (t : List (String × Val α)) (v1 v2 : Val α),
      ¬(p1 <+: p2) → ¬(p2 <+: p1) →
      ERel DEq (ins2 t p1 v1 p2 v2) (ins2 t p2 v2 p1 v1)
  | [], _, _, _, _, h1, _ => absurd List.nil_prefix h1
  | _ :: _, [], _, _, _, _, h2 => absurd List.nil_prefix h2
  | k1 :: r1, k2 :: r2, t, v1, v2, h1, h2 => by
      by_cases hk : k1 = k2
      · subst hk
        have hr1 : ¬(r1 <+: r2) := fun hc =>
          h1 (List.cons_prefix_cons.mpr ⟨rfl, hc⟩)
        have hr2 : ¬(r2 <+: r1) := fun hc =>
          h2 (List.cons_prefix_cons.mpr ⟨rfl, hc⟩)
        have ha : r1 ≠ [] := fun he =>
          hr1 (by rw [he]; exact List.nil_prefix)
        have hb : r2 ≠ [] := fun he =>
          hr2 (by rw [he]; exact List.nil_prefix)
        cases hg : aget t k1 with
        | some w =>
            cases w with
            | atom a =>
                rw [ins2_same_head_atom t k1 a r1 r2 v1 v2 hg ha hb,
                  ins2_same_head_atom t k1 a r2 r1 v2 v1 hg hb ha]
                simp [ERel]
            | dict sub =>
                have hrec := ins2_swap r1 r2 sub v1 v2 hr1 hr2
                rw [ins2_same_head_dict t k1 sub r1 r2 v1 v2 hg ha hb,
                  ins2_same_head_dict t k1 sub r2 r1 v2 v1 hg hb ha]
                cases hA : ins2 sub r1 v1 r2 v2 with
                | error e =>
                    cases hB : ins2 sub r2 v2 r1 v1 with
                    | error e' => simp [ERel]
                    | ok sB =>
                        rw [hA, hB] at hrec
                        simp [ERel] at hrec
                | ok sA =>
                    cases hB : ins2 sub r2 v2 r1 v1 with
                    | error e' =>
                        rw [hA, hB] at hrec
                        simp [ERel] at hrec
                    | ok sB =>
                        rw [hA, hB] at hrec
                        exact DEq_aset t t k1 (.dict sA) (.dict sB)
                          (deq_refl t) (VEq.dict sA sB hrec)
        | none =>
            have hrec := ins2_swap r1 r2
              ([] : List (String × Val α)) v1 v2 hr1 hr2
            rw [ins2_nil r1 r2 v1 v2 ha, ins2_nil r2 r1 v2 v1 hb] at hrec
            rw [ins2_same_head_none t k1 r1 r2 v1 v2 hg ha hb,
              ins2_same_head_none t k1 r2 r1 v2 v1 hg hb ha]
            cases hA : insertPath (chainOf r1 v1) r2 v2 with
            | error e =>
                cases hB : insertPath (chainOf r2 v2) r1 v1 with
                | error e' => simp [ERel]
                | ok sB =>
                    rw [hA, hB] at hrec
                    simp [ERel] at hrec
            | ok sA =>
                cases hB : insertPath (chainOf r2 v2) r1 v1 with
                | error e' =>
                    rw [hA, hB] at hrec
                    simp [ERel] at hrec
                | ok sB =>
                    rw [hA, hB] at hrec
                    exact DEq_aset t t k1 (.dict sA) (.dict sB)
                      (deq_refl t) (VEq.dict sA sB hrec)
      · rw [ins2_diff_head t k1 k2 r1 r2 v1 v2 hk,
          ins2_diff_head t k2 k1 r2 r1 v2 v1 (Ne.symm hk)]
        cases hA : insertChild (aget t k1) r1 v1 with
        | error e =>
            cases hB : insertChild (aget t k2) r2 v2 with
            | error e' => simp [ERel]
            | ok x2 => simp [ERel]
        | ok x1 =>
            cases hB : insertChild (aget t k2) r2 v2 with
            | error e' => simp [ERel]
            | ok x2 =>
                dsimp only
                exact aset_comm_DEq t k1 k2 x1 x2 hk

theorem foldIns_cons {α : Type} (t : List (String × Val α))
    (kv : List String × Val α) (d : List (List String × Val α)) :
    foldIns t (kv :: d)
      = match insertPath t kv.1 kv.2 with
        | .error _ => .error ()
        | .ok t1 => foldIns t1 d := by
  cases h : insertPath t kv.1 kv.2 <;>
    simp [foldIns, List.foldlM_cons, h, Bind.bind, Except.bind]

theorem foldIns_cons_cons {α : Type} (t : List (String × Val α))
    (a b : List String × Val α) (d : List (List String × Val α)) :
    foldIns t (a :: b :: d)
      = match ins2 t a.1 a.2 b.1 b.2 with
        | .error _ => .error ()
        | .ok t2 => foldIns t2 d := by
  rw [foldIns_cons]
  cases hA : insertPath t a.1 a.2 with
  | error e => simp [ins2, hA]
  | ok t1 =>
      dsimp only
      rw [foldIns_cons]
      cases hB : insertPath t1 b.1 b.2 <;> simp [ins2, hA, hB]

theorem foldIns_congr {α : Type} :
    ∀ (d : List (List String × Val α)) (t t' : List (String × Val α)),
      DEq t t' → ERel DEq (foldIns t d) (foldIns t' d) := by
  intro d
  induction d with
  | nil => intro t t' h; exact h
  | cons kv tl ih =>
      intro t t' h
      rw [foldIns_cons, foldIns_cons]
      have hstep := insertPath_congr kv.1 t t' kv.2 h
      cases hA : insertPath t kv.1 kv.2 <;>
        cases hB : insertPath t' kv.1 kv.2 <;> rw [hA, hB] at hstep
      · simp [ERel]
      · simp [ERel] at hstep
      · simp [ERel] at hstep
      · exact ih _ _ hstep

theorem foldIns_perm {α : Type} :
    ∀ (d1 d2 : List (List String × Val α)), d1.Perm d2 →
      d1.Pairwise (fun a b => ¬(a.1 <+: b.1) ∧ ¬(b.1 <+: a.1)) →
      ∀ (t t' : List (String × Val α)), DEq t t' →
        ERel DEq (foldIns t d1) (foldIns t' d2) := by
  intro d1 d2 hperm
  induction hperm with
  | nil => intro _ t t' h; exact h
  | cons x hsub ih =>
      intro hp t t' h
      rw [foldIns_cons, foldIns_cons]
      have hstep := insertPath_congr x.1 t t' x.2 h
      cases hA : insertPath t x.1 x.2 <;>
        cases hB : insertPath t' x.1 x.2 <;> rw [hA, hB] at hstep
      · simp [ERel]
      · simp [ERel] at hstep
      · simp [ERel] at hstep
      · exact ih (List.pairwise_cons.mp hp).2 _ _ hstep
  | swap x y l =>
      intro hp t t' h
      have hxy := (List.pairwise_cons.mp hp).1 x (by simp)
      have hswap := ins2_swap y.1 x.1 t y.2 x.2 hxy.1 hxy.2
      have hcongr := foldIns_congr (x :: y :: l) t t' h
      rw [foldIns_cons_cons t x y l, foldIns_cons_cons t' x y l] at hcongr
      rw [foldIns_cons_cons, foldIns_cons_cons]
      cases hA : ins2 t y.1 y.2 x.1 x.2 <;>
        cases hB : ins2 t x.1 x.2 y.1 y.2 <;>
          rw [hA, hB] at hswap <;> rw [hB] at hcongr
      · exact hcongr
      · simp [ERel] at hswap
      · simp [ERel] at hswap
      · refine ERel_trans (fun a b c => deq_trans a b c) _ _ _
          (foldIns_congr l _ _ hswap) hcongr
  | trans h12 h23 ih12 ih23 =>
      intro hp t t' h
      have hp2 := (h12.pairwise_iff
        (fun hh => ⟨hh.2, hh.1⟩)).1 hp
      exact ERel_trans (fun a b c => deq_trans a b c) _ _ _
        (ih12 hp t t (deq_refl t)) (ih23 hp2 t t' h)

theorem pathFits_nil_tree {α : Type} (q : List String) (hq : q ≠ []) :
    pathFits ([] : List (String × Val α)) q = true := by
  cases q with
  | nil => cases hq rfl
  | cons k tail => cases tail <;> simp [pathFits, aget]

theorem insertPath_ok_of_fits {α : Type} :
    ∀ (p : List String) (t : List (String × Val α)) (v : Val α),
      pathFits t p = true → ∃ t2, insertPath t p v = .ok t2 := by
  intro p
  induction p with
  | nil => intro t v h; simp [pathFits] at h
  | cons k tail ih =>
      intro t v h
      cases tail with
      | nil => exact ⟨aset t k v, rfl⟩
      | cons k2 rest =>
          simp only [pathFits] at h
          cases hg : aget t k with
          | none =>
              refine ⟨aset t k (.dict (chainOf (k2 :: rest) v)), ?_⟩
              simp [insertPath, hg, insertPath_nil (k2 :: rest) v
                (by simp)]
          | some w =>
              rw [hg] at h
              cases w with
              | atom a => simp at h
              | dict sub =>
                  rcases ih sub v h with ⟨s2, hs2⟩
                  exact ⟨aset t k (.dict s2), by
                    simp [insertPath, hg, hs2]⟩

theorem pathFits_chain {α : Type} :
    ∀ (rp s : List String) (v : Val α), s ≠ [] → ¬(rp <+: s) →
      pathFits (chainOf rp v) s = true := by
  intro rp
  induction rp with
  | nil => intro s v _ hpre; exact absurd List.nil_prefix hpre
  | cons a rp' ih =>
      intro s v hs hpre
      cases s with
      | nil => cases hs rfl
      | cons k tail =>
          cases tail with
          | nil => cases rp' <;> simp [pathFits, chainOf]
          | cons k2 t2 =>
              by_cases hak : a = k
              · subst hak
                cases rp' with
                | nil =>
                    exact absurd (List.cons_prefix_cons.mpr
                      ⟨rfl, List.nil_prefix⟩) hpre
                | cons b rp'' =>
                    have hsub : ¬((b :: rp'') <+: (k2 :: t2)) := fun hc =>
                      hpre (List.cons_prefix_cons.mpr ⟨rfl, hc⟩)
                    simp only [pathFits, chainOf, aget, if_pos rfl]
                    exact ih (k2 :: t2) v (by simp) hsub
              · cases rp' <;>
                  simp [pathFits, chainOf, aget, hak]

theorem pathFits_preserved {α : Type} :
    ∀ (q p : List String) (t t2 : List (String × Val α)) (v : Val α),
      pathFits t q = true → ¬(p <+: q) → insertPath t p v = .ok t2 →
      pathFits t2 q = true := by
  intro q
  induction q with
  | nil => intro p t t2 v h _ _; simp [pathFits] at h
  | cons k tail ih =>
      intro p t t2 v hfits hpre hins
      cases tail with
      | nil => simp [pathFits]
      | cons k2 rq =>
          cases p with
          | nil => simp [insertPath] at hins
          | cons kp rp =>
              rw [insertPath_eq_child] at hins
              cases hX : insertChild (aget t kp) rp v with
              | error e => rw [hX] at hins; cases hins
              | ok X =>
                  rw [hX] at hins
                  simp only [Except.ok.injEq] at hins
                  subst hins
                  by_cases hk : kp = k
                  · subst hk
                    have hrp : rp ≠ [] := by
                      intro he
                      subst he
                      exact hpre (List.cons_prefix_cons.mpr
                        ⟨rfl, List.nil_prefix⟩)
                    have hrpq : ¬(rp <+: (k2 :: rq)) := fun hc =>
                      hpre (List.cons_prefix_cons.mpr ⟨rfl, hc⟩)
                    cases rp with
                    | nil => cases hrp rfl
                    | cons x xs =>
                        simp only [pathFits] at hfits ⊢
                        rw [aget_aset_self]
                        cases hg : aget t kp with
                        | none =>
                            rw [hg] at hX
                            simp only [insertChild, Except.ok.injEq]
                              at hX
                            subst hX
                            exact pathFits_chain (x :: xs) (k2 :: rq) v
                              (by simp) hrpq
                        | some w =>
                            rw [hg] at hX
                            cases w with
                            | atom a => simp [insertChild] at hX
                            | dict sub =>
                                rw [hg] at hfits
                                cases hS : insertPath sub (x :: xs) v with
                                | error e =>
                                    simp [insertChild, hS] at hX
                                | ok s2 =>
                                    simp only [insertChild, hS,
                                      Except.ok.injEq] at hX
                                    subst hX
                                    exact ih (x :: xs) sub s2 v hfits
                                      hrpq hS
                  · simp only [pathFits] at hfits ⊢
                    rw [aget_aset_ne t kp k X hk]
                    exact hfits

theorem foldIns_ok {α : Type} :
    ∀ (d : List (List String × Val α)) (t : List (String × Val α)),
      (∀ kv ∈ d, pathFits t kv.1 = true) →
      d.Pairwise (fun a b => ¬(a.1 <+: b.1) ∧ ¬(b.1 <+: a.1)) →
      ∃ t2, foldIns t d = .ok t2 := by
  intro d
  induction d with
  | nil => intro t _ _; exact ⟨t, rfl⟩
  | cons kv tl ih =>
      intro t hfits hp
      rcases insertPath_ok_of_fits kv.1 t kv.2
        (hfits kv (by simp)) with ⟨t1, ht1⟩
      rw [foldIns_cons, ht1]
      exact ih t1
        (fun kv' hkv' => pathFits_preserved kv'.1 kv.1 t t1 kv.2
          (hfits kv' (List.mem_cons_of_mem _ hkv'))
          ((List.pairwise_cons.mp hp).1 kv' hkv').1 ht1)
        (List.pairwise_cons.mp hp).2

/-- Counterexample for C7: a flat mapping with unique key paths whose two
iteration orders do NOT yield deeply equal results — one order raises and
the other returns a tree (the paths `("u",)` and `("u","v")` are distinct
but conflicting). -/
theorem unflatten_perm_counterexample :
    ([(["u"], Val.atom (1 : Nat)), (["u", "v"], Val.atom 2)]).Perm
        [(["u", "v"], Val.atom (2 : Nat)), (["u"], Val.atom 1)] ∧
    (["u"] : List String) ≠ ["u", "v"] ∧
    unflatten [(["u"], Val.atom (1 : Nat)), (["u", "v"], Val.atom 2)]
      = .error () ∧
    unflatten [(["u", "v"], Val.atom (2 : Nat)), (["u"], Val.atom 1)]
      = .ok [("u", Val.atom 1)] :=
  ⟨List.Perm.swap (["u", "v"], Val.atom 2) (["u"], Val.atom 1) [],
    by decide, rfl, rfl⟩

/-- C7 (amended): for a flat mapping whose key paths are unique, nonempty
and mutually prefix-incompatible (no path is a prefix of another — the
wellformedness the spec's flattened trees always satisfy), every iteration
order of the entries succeeds and any two orders produce deeply equal
nested trees (`DEq`, Python `==` on dicts). -/
theorem unflatten_order_independent {α : Type}
    (d1 d2 : List (List String × Val α)) (hperm : d1.Perm d2)
    (hne : ∀ kv ∈ d1, kv.1 ≠ ([] : List String))
    (hcompat : d1.Pairwise
      (fun a b => ¬(a.1 <+: b.1) ∧ ¬(b.1 <+: a.1))) :
    ∃ t1 t2, unflatten d1 = .ok t1 ∧ unflatten d2 = .ok t2 ∧
      DEq t1 t2 := by
  rcases foldIns_ok d1 []
    (fun kv hkv => pathFits_nil_tree kv.1 (hne kv hkv)) hcompat
    with ⟨t1, ht1⟩
  have hrel := foldIns_perm d1 d2 hperm hcompat [] [] (deq_refl [])
  rw [ht1] at hrel
  cases h2 : foldIns ([] : List (String × Val α)) d2 with
  | error e => rw [h2] at hrel; simp [ERel] at hrel
  | ok t2 =>
      rw [h2] at hrel
      exact ⟨t1, t2, ht1, h2, hrel⟩

/-- Witness for `unflatten_order_independent` at a concrete two-entry
mapping and its transposition. -/
theorem unflatten_order_independent_witness :
    ∃ t1 t2,
      unflatten [(["m"], Val.atom (1 : Nat)), (["n"], Val.atom 2)]
        = .ok t1 ∧
      unflatten [(["n"], Val.atom (2 : Nat)), (["m"], Val.atom 1)]
        = .ok t2 ∧
      DEq t1 t2 :=
  unflatten_order_independent
    [(["m"], Val.atom 1), (["n"], Val.atom 2)]
    [(["n"], Val.atom 2), (["m"], Val.atom 1)]
    (List.Perm.swap (["n"], Val.atom 2) (["m"], Val.atom 1) [])
    (by
      intro kv hkv
      rcases List.mem_cons.mp hkv with rfl | hkv2
      · simp
      · rcases List.mem_cons.mp hkv2 with rfl | hkv3
        · simp
        · simp at hkv3)
    (by
      refine List.Pairwise.cons ?_
        (List.Pairwise.cons (by simp) List.Pairwise.nil)
      intro b hb
      rcases List.mem_cons.mp hb with rfl | hb2
      · exact ⟨by decide, by decide⟩
      · simp at hb2)

/-! Lemmas for the heap model of `unflatten` (claim about the input dict
being left unchanged by a completed call). -/

theorem aset_keys_of_mem {κ β : Type} [DecidableEq κ]
    (t : List (κ × β)) (k : κ) (v w : β) (h : aget t k = some w) :
    (aset t k v).map Prod.fst = t.map Prod.fst := by
  induction t with
  | nil => simp [aget] at h
  | cons hd tl ih =>
      obtain ⟨k', v'⟩ := hd
      simp only [aget] at h
      by_cases h1 : k' = k
      · simp [aset, h1]
      · rw [if_neg h1] at h
        simp [aset, h1, ih h]

theorem aset_length_none {κ β : Type} [DecidableEq κ]
    (t : List (κ × β)) (k : κ) (v : β) (h : aget t k = none) :
    (aset t k v).length = t.length + 1 := by
  rw [aset_fresh t k v h]
  simp

theorem aget_none_of_ne {κ β : Type} [DecidableEq κ]
    (t : List (κ × β)) (k : κ) (h : ∀ ao ∈ t, ao.1 ≠ k) :
    aget t k = none := by
  induction t with
  | nil => rfl
  | cons hd tl ih =>
      simp only [aget]
      rw [if_neg (h hd (by simp))]
      exact ih (fun ao hao => h ao (List.mem_cons_of_mem _ hao))

theorem aget_str_none_of_tupKeyed {α : Type}
    (o : List (PyKey × HVal α)) (k : String) (h : tupKeyed o) :
    aget o (PyKey.str k) = none := by
  apply aget_none_of_ne
  intro ao hao
  rcases h ao hao with ⟨ks, hks⟩
  rw [hks]
  intro he
  cases he

theorem dAddr_lt_next {α : Type} (h : Heap α) (dAddr : Nat)
    (o : List (PyKey × HVal α)) (hd : hlookup h dAddr = some o)
    (hwf : wfHeap h) : dAddr < h.next :=
  hwf (dAddr, o) (aget_mem h.objs dAddr o hd)

theorem setdefaultH_inv {α : Type} (orig : List (PyKey × HVal α))
    (dAddr : Nat) (h : Heap α) (curr : Nat) (k : String) (c2 : Nat)
    (h2 : Heap α) (hres : setdefaultH h curr k = .ok (c2, h2))
    (hinv : dInv orig dAddr h) (hwf : wfHeap h) :
    dInv orig dAddr h2 ∧ wfHeap h2 := by
  rcases hinv with ⟨o, ho, hor⟩
  unfold setdefaultH at hres
  cases hc : hlookup h curr with
  | none => rw [hc] at hres; cases hres
  | some obj =>
      rw [hc] at hres
      dsimp only at hres
      cases hg : aget obj (PyKey.str k) with
      | some w =>
          rw [hg] at hres
          cases w with
          | ref a =>
              simp only [Except.ok.injEq, Prod.mk.injEq] at hres
              rw [← hres.2]
              exact ⟨⟨o, ho, hor⟩, hwf⟩
          | prim x => cases hres
      | none =>
          rw [hg] at hres
          dsimp only at hres
          have hcurrmem : (curr, obj) ∈ h.objs :=
            aget_mem h.objs curr obj hc
          have hcurrlt : curr < h.next := hwf (curr, obj) hcurrmem
          have hnextne : h.next ≠ curr := (Nat.ne_of_lt hcurrlt).symm
          have hnextfresh : aget h.objs h.next = none :=
            aget_none_of_ne h.objs h.next
              (fun ao hao => Nat.ne_of_lt (hwf ao hao))
          have hdlt : dAddr < h.next :=
            hwf (dAddr, o) (aget_mem h.objs dAddr o ho)
          simp only [halloc, hwrite, Except.ok.injEq, Prod.mk.injEq]
            at hres
          obtain ⟨hc2, hh2⟩ := hres
          subst hh2
          have hcurr1 : aget (aset h.objs h.next
              ([] : List (PyKey × HVal α))) curr = some obj := by
            rw [aget_aset_ne h.objs h.next curr [] hnextne]
            exact hc
          constructor
          · by_cases hcd : curr = dAddr
            · subst hcd
              have hobj : obj = o := by
                rw [hc] at ho
                exact Option.some.inj ho
              refine ⟨aset obj (PyKey.str k) (HVal.ref h.next), ?_,
                Or.inr ?_⟩
              · show aget (aset (aset h.objs h.next []) curr
                  (aset obj (PyKey.str k) (HVal.ref h.next))) curr
                    = some (aset obj (PyKey.str k) (HVal.ref h.next))
                exact aget_aset_self _ _ _
              · have hlen := aset_length_none obj (PyKey.str k)
                  (HVal.ref h.next) hg
                rcases hor with ho2 | ho2
                · have he : obj.length = orig.length := by
                    rw [hobj, ho2]
                  omega
                · have he : o.length = obj.length := by rw [hobj]
                  omega
            · refine ⟨o, ?_, hor⟩
              show aget (aset (aset h.objs h.next []) curr
                (aset obj (PyKey.str k) (HVal.ref h.next))) dAddr
                  = some o
              rw [aget_aset_ne _ curr dAddr _ hcd]
              rw [aget_aset_ne _ h.next dAddr []
                (Nat.ne_of_lt hdlt).symm]
              exact ho
          · intro ao hao
            show ao.1 < h.next + 1
            have hmem : ao.1 ∈ (aset (aset h.objs h.next
                ([] : List (PyKey × HVal α))) curr
                  (aset obj (PyKey.str k) (HVal.ref h.next))).map
                    Prod.fst :=
              List.mem_map.mpr ⟨ao, hao, rfl⟩
            rw [aset_keys_of_mem _ curr _ obj hcurr1] at hmem
            rw [aset_fresh h.objs h.next [] hnextfresh] at hmem
            simp only [List.map_append, List.map_cons, List.map_nil]
              at hmem
            rcases List.mem_append.mp hmem with hm | hm
            · rcases List.mem_map.mp hm with ⟨ao', hao', he⟩
              have := hwf ao' hao'
              omega
            · simp only [List.mem_singleton] at hm
              omega

theorem assignH_inv {α : Type} (orig : List (PyKey × HVal α))
    (dAddr : Nat) (h : Heap α) (curr : Nat) (k : String) (v : HVal α)
    (h2 : Heap α) (hk : tupKeyed orig)
    (hres : assignH h curr k v = .ok h2)
    (hinv : dInv orig dAddr h) (hwf : wfHeap h) :
    dInv orig dAddr h2 ∧ wfHeap h2 := by
  rcases hinv with ⟨o, ho, hor⟩
  unfold assignH at hres
  cases hc : hlookup h curr with
  | none => rw [hc] at hres; cases hres
  | some obj =>
      rw [hc] at hres
      simp only [hwrite, Except.ok.injEq] at hres
      subst hres
      have hcurrmem : (curr, obj) ∈ h.objs :=
        aget_mem h.objs curr obj hc
      have hdlt : dAddr < h.next :=
        hwf (dAddr, o) (aget_mem h.objs dAddr o ho)
      constructor
      · by_cases hcd : curr = dAddr
        · subst hcd
          have hobj : obj = o := by
            rw [hc] at ho
            exact Option.some.inj ho
          refine ⟨aset obj (PyKey.str k) v, ?_, Or.inr ?_⟩
          · show aget (aset h.objs curr (aset obj (PyKey.str k) v)) curr
              = some (aset obj (PyKey.str k) v)
            exact aget_aset_self _ _ _
          · cases hg : aget obj (PyKey.str k) with
            | none =>
                have hlen := aset_length_none obj (PyKey.str k) v hg
                rcases hor with ho2 | ho2
                · have he : obj.length = orig.length := by
                    rw [hobj, ho2]
                  omega
                · have he : o.length = obj.length := by rw [hobj]
                  omega
            | some w =>
                have hkeys := aset_keys_of_mem obj (PyKey.str k) v w hg
                have hlen : (aset obj (PyKey.str k) v).length
                    = obj.length := by
                  have := congrArg List.length hkeys
                  simpa using this
                rcases hor with ho2 | ho2
                · have : aget obj (PyKey.str k) = none := by
                    rw [hobj, ho2]
                    exact aget_str_none_of_tupKeyed orig k hk
                  rw [this] at hg
                  cases hg
                · have he : o.length = obj.length := by rw [hobj]
                  omega
        · refine ⟨o, ?_, hor⟩
          show aget (aset h.objs curr (aset obj (PyKey.str k) v)) dAddr
            = some o
          rw [aget_aset_ne _ curr dAddr _ hcd]
          exact ho
      · intro ao hao
        show ao.1 < h.next
        have hmem : ao.1 ∈ (aset h.objs curr
            (aset obj (PyKey.str k) v)).map Prod.fst :=
          List.mem_map.mpr ⟨ao, hao, rfl⟩
        rw [aset_keys_of_mem _ curr _ obj hc] at hmem
        rcases List.mem_map.mp hmem with ⟨ao', hao', he⟩
        have := hwf ao' hao'
        omega

theorem walkSegs_inv {α : Type} (orig : List (PyKey × HVal α))
    (dAddr : Nat) :
    ∀ (segs : List String) (h : Heap α) (curr c2 : Nat) (h2 : Heap α),
      walkSegs h curr segs = .ok (c2, h2) →
      dInv orig dAddr h → wfHeap h → dInv orig dAddr h2 ∧ wfHeap h2 := by
  intro segs
  induction segs with
  | nil =>
      intro h curr c2 h2 hres hinv hwf
      simp only [walkSegs, Except.ok.injEq, Prod.mk.injEq] at hres
      rw [← hres.2]
      exact ⟨hinv, hwf⟩
  | cons k rest ih =>
      intro h curr c2 h2 hres hinv hwf
      simp only [walkSegs] at hres
      cases hs : setdefaultH h curr k with
      | error e => rw [hs] at hres; cases hres
      | ok p =>
          obtain ⟨cm, hm⟩ := p
          rw [hs] at hres
          have step := setdefaultH_inv orig dAddr h curr k cm hm hs
            hinv hwf
          exact ih hm cm c2 h2 hres step.1 step.2

theorem insertEntryH_inv {α : Type} (orig : List (PyKey × HVal α))
    (dAddr : Nat) (h : Heap α) (nested : Nat) (ks : List String)
    (v : HVal α) (h2 : Heap α) (hk : tupKeyed orig)
    (hres : insertEntryH h nested ks v = .ok h2)
    (hinv : dInv orig dAddr h) (hwf : wfHeap h) :
    dInv orig dAddr h2 ∧ wfHeap h2 := by
  unfold insertEntryH at hres
  cases hl : ks.getLast? with
  | none => rw [hl] at hres; cases hres
  | some klast =>
      rw [hl] at hres
      dsimp only at hres
      cases hw : walkSegs h nested ks.dropLast with
      | error e => rw [hw] at hres; cases hres
      | ok p =>
          obtain ⟨curr, hm⟩ := p
          rw [hw] at hres
          have step := walkSegs_inv orig dAddr ks.dropLast h nested curr
            hm hw hinv hwf
          exact assignH_inv orig dAddr hm curr klast v h2 hk hres
            step.1 step.2

theorem unflattenLoop_frame {α : Type} (orig : List (PyKey × HVal α))
    (dAddr nested : Nat) (hk : tupKeyed orig) :
    ∀ (entries : List (PyKey × HVal α)) (h h2 : Heap α),
      unflattenLoop orig dAddr nested h entries = .ok h2 →
      dInv orig dAddr h → wfHeap h → hlookup h2 dAddr = some orig := by
  intro entries
  induction entries with
  | nil =>
      intro h h2 hres hinv hwf
      rcases hinv with ⟨o, ho, hor⟩
      simp only [unflattenLoop] at hres
      rw [ho] at hres
      dsimp only at hres
      by_cases hlen : o.length = orig.length
      · rw [if_pos hlen] at hres
        cases hres
        rw [ho]
        rcases hor with rfl | ho2
        · rfl
        · omega
      · rw [if_neg hlen] at hres
        cases hres
  | cons kv rest ih =>
      intro h h2 hres hinv hwf
      obtain ⟨key, v⟩ := kv
      cases key with
      | str sk => simp [unflattenLoop] at hres
      | tup ks =>
          simp only [unflattenLoop] at hres
          cases hi : insertEntryH h nested ks v with
          | error e => rw [hi] at hres; cases hres
          | ok hmid =>
              rw [hi] at hres
              dsimp only at hres
              have step := insertEntryH_inv orig dAddr h nested ks v
                hmid hk hi hinv hwf
              rcases step.1 with ⟨o, ho, hor⟩
              rw [ho] at hres
              dsimp only at hres
              by_cases hlen : o.length = orig.length
              · rw [if_pos hlen] at hres
                exact ih hmid h2 hres ⟨o, ho, hor⟩ step.2
              · rw [if_neg hlen] at hres
                cases hres

/-- C10: a completed `unflattenH` call returns a freshly allocated nested
dict and leaves the input flat mapping unchanged: the heap binding of the
input dict after the call has exactly the keys and stored values it had
before, and the returned address is new.  (Hypotheses: the heap is
wellformed and the input's keys are key-path tuples, per the function's
contract; writes into aliased dicts insert string keys, so any mutation of
the input would change its size and make CPython's changed-size-during-
iteration check raise instead of returning.) -/
theorem unflattenH_frame {α : Type} (h : Heap α) (dAddr : Nat)
    (orig : List (PyKey × HVal α)) (h2 : Heap α) (nA : Nat)
    (hd : hlookup h dAddr = some orig) (hk : tupKeyed orig)
    (hwf : wfHeap h) (hres : unflattenH h dAddr = .ok (h2, nA)) :
    hlookup h2 dAddr = some orig ∧ nA ≠ dAddr ∧ hlookup h nA = none := by
  have hdlt : dAddr < h.next :=
    hwf (dAddr, orig) (aget_mem h.objs dAddr orig hd)
  have hnextfresh : aget h.objs h.next = none :=
    aget_none_of_ne h.objs h.next
      (fun ao hao => Nat.ne_of_lt (hwf ao hao))
  unfold unflattenH at hres
  rw [hd] at hres
  simp only [halloc] at hres
  cases hloop : unflattenLoop orig dAddr h.next
      ⟨h.next + 1, aset h.objs h.next []⟩ orig with
  | error e => rw [hloop] at hres; cases hres
  | ok hend =>
      rw [hloop] at hres
      simp only [Except.ok.injEq, Prod.mk.injEq] at hres
      obtain ⟨hh2, hnA⟩ := hres
      subst hh2
      subst hnA
      refine ⟨?_, Nat.ne_of_lt hdlt |>.symm, hnextfresh⟩
      apply unflattenLoop_frame orig dAddr h.next hk orig _ _ hloop
      · refine ⟨orig, ?_, Or.inl rfl⟩
        show aget (aset h.objs h.next []) dAddr = some orig
        rw [aget_aset_ne _ h.next dAddr [] (Nat.ne_of_lt hdlt).symm]
        exact hd
      · intro ao hao
        show ao.1 < h.next + 1
        have hmem : ao.1 ∈ (aset h.objs h.next
            ([] : List (PyKey × HVal α))).map Prod.fst :=
          List.mem_map.mpr ⟨ao, hao, rfl⟩
        rw [aset_fresh h.objs h.next [] hnextfresh] at hmem
        simp only [List.map_append, List.map_cons, List.map_nil] at hmem
        rcases List.mem_append.mp hmem with hm | hm
        · rcases List.mem_map.mp hm with ⟨ao', hao', he⟩
          have := hwf ao' hao'
          omega
        · simp only [List.mem_singleton] at hm
          omega

/-- Witness for `unflattenH_frame` on a one-entry heap. -/
theorem unflattenH_frame_witness :
    hlookup
        (⟨2, [(0, [(PyKey.tup ["a"], HVal.prim (5 : Nat))]),
          (1, [(PyKey.str "a", HVal.prim 5)])]⟩ : Heap Nat) 0
      = some [(PyKey.tup ["a"], HVal.prim 5)] ∧
    (1 : Nat) ≠ 0 ∧
    hlookup (⟨1, [(0, [(PyKey.tup ["a"], HVal.prim (5 : Nat))])]⟩ :
      Heap Nat) 1 = none :=
  unflattenH_frame
    ⟨1, [(0, [(PyKey.tup ["a"], HVal.prim 5)])]⟩ 0
    [(PyKey.tup ["a"], HVal.prim 5)]
    ⟨2, [(0, [(PyKey.tup ["a"], HVal.prim 5)]),
      (1, [(PyKey.str "a", HVal.prim 5)])]⟩ 1
    rfl
    (by
      intro kv hkv
      rcases List.mem_singleton.mp hkv with rfl
      exact ⟨["a"], rfl⟩)
    (by
      intro ao hao
      rcases List.mem_singleton.mp hao with rfl
      decide)
    rfl

end GitTheta
